import Mathlib

/-!
Shallow embedding of `src/charges/charge.py` (repository `charges`).

Python strings are modelled as `List Char` (`len` is `List.length`, `+` is
`++`), floats as `ℚ`, `dict`/`defaultdict(list)` as insertion-ordered
association lists, and the two `ZeroDivisionError` sites of `batch_receipt`
as an `Except` error result.
-/

set_option maxRecDepth 8000

abbrev Str := List Char

/-- Participant identities: the `ME` / `EVERYONE` sentinels and plain handles. -/
inductive Participant where
  | me
  | everyone
  | named (handle : Str)
  deriving DecidableEq

instance : Inhabited Participant := ⟨.me⟩

/-- Round half to even, as Python's builtin `round` on exact values. -/
def roundHalfEven (x : ℚ) : ℤ :=
  if x - ⌊x⌋ < 1/2 then ⌊x⌋
  else if (1 : ℚ)/2 < x - ⌊x⌋ then ⌊x⌋ + 1
  else if ⌊x⌋ % 2 = 0 then ⌊x⌋ else ⌊x⌋ + 1

/-- Python `round(x, 2)`. -/
def round2 (x : ℚ) : ℚ := (roundHalfEven (x * 100) : ℚ) / 100

/-- `Item` from `charge.py`: amount, participants, note. -/
structure Item where
  amount : ℚ
  participants : List Participant
  note : Str
  deriving DecidableEq

/-- `Receipt` from `charge.py`: name, items, total, date (opaque, passed through). -/
structure Receipt where
  name : Str
  items : List Item
  total : ℚ
  date : Int
  deriving DecidableEq

/-- `Item.price_per`: `round(self.amount / len(self.participants), 2)`. -/
def Item.price_per (it : Item) : ℚ :=
  round2 (it.amount / (it.participants.length : ℚ))

/-- Two-digit zero-padded fraction part of a money string. -/
def padTwo (n : Nat) : Str :=
  (if n < 10 then ['0'] else []) ++ Nat.toDigits 10 n

/-- Insert a thousands separator every three characters (input reversed digits). -/
def commaRev : Str → Str
  | a :: b :: c :: rest =>
      if rest.isEmpty then [a, b, c] else a :: b :: c :: ',' :: commaRev rest
  | l => l

/-- Python float formatting `f"{x:.2f}"`. -/
def fmtPlain (x : ℚ) : Str :=
  let y := roundHalfEven (x * 100)
  (if y < 0 then ['-'] else []) ++ Nat.toDigits 10 (y.natAbs / 100) ++ ['.']
    ++ padTwo (y.natAbs % 100)

/-- Python float formatting `f"{x:,.2f}"` (thousands separators). -/
def fmtComma (x : ℚ) : Str :=
  let y := roundHalfEven (x * 100)
  (if y < 0 then ['-'] else []) ++ (commaRev (Nat.toDigits 10 (y.natAbs / 100)).reverse).reverse
    ++ ['.'] ++ padTwo (y.natAbs % 100)

/-- A `(amount, notes)` accumulator / closed charge bundle. -/
abbrev Bundle := ℚ × Str

/-- The `participants` dict: insertion-ordered `Participant → (amount, notes)`. -/
abbrev PartMap := List (Participant × Bundle)

/-- The `final_charges` defaultdict: insertion-ordered `Participant → list of bundles`. -/
abbrev ChargeMap := List (Participant × List Bundle)

def lookupP : PartMap → Participant → Option Bundle
  | [], _ => none
  | (q, b) :: rest, p => if q = p then some b else lookupP rest p

def updateP : PartMap → Participant → Bundle → PartMap
  | [], _, _ => []
  | (q, b) :: rest, p, b' => if q = p then (q, b') :: rest else (q, b) :: updateP rest p b'

/-- `if participant not in participants: participants[participant] = (0., '')`. -/
def insertIfAbsent (m : PartMap) (p : Participant) : PartMap :=
  if (lookupP m p).isSome then m else m ++ [(p, (0, []))]

def getKey : ChargeMap → Participant → Option (List Bundle)
  | [], _ => none
  | (q, bs) :: rest, p => if q = p then some bs else getKey rest p

/-- `final_charges[participant].append(bundle)` on a `defaultdict(list)`. -/
def pushBundle : ChargeMap → Participant → Bundle → ChargeMap
  | [], p, b => [(p, [b])]
  | (q, bs) :: rest, p, b =>
      if q = p then (q, bs ++ [b]) :: rest else (q, bs) :: pushBundle rest p b

/-- `final_charges.pop(participant)`, key removal part. -/
def removeKey : ChargeMap → Participant → ChargeMap
  | [], _ => []
  | (q, bs) :: rest, p => if q = p then rest else (q, bs) :: removeKey rest p

/-- The mutable state of the fan-out loop in `batch_receipt`. -/
structure AllocState where
  parts : PartMap
  fc : ChargeMap
  deriving DecidableEq

/-- The fan-out line `f'\n${price_per:,.2f}: {item.note}'` (the earlier
`f',{item.note}'` assignment in the source is dead and immediately overwritten). -/
def newNote (ratio : ℚ) (item : Item) : Str :=
  '\n' :: '$' :: fmtComma (item.price_per * ratio) ++ (':' :: ' ' :: item.note)

/-- One iteration of the inner fan-out loop of `batch_receipt` (lines 93-104). -/
def fanStep (ratio : ℚ) (item : Item) (st : AllocState) (p : Participant) : AllocState :=
  let parts := insertIfAbsent st.parts p
  let ab := (lookupP parts p).getD (0, [])
  let price := item.price_per * ratio
  let nn := newNote ratio item
  if ab.2.length + nn.length + 1 > 250 then
    ⟨updateP parts p (price, nn), pushBundle st.fc p ab⟩
  else
    ⟨updateP parts p (ab.1 + price, ab.2 ++ nn), st.fc⟩

def fanItem (ratio : ℚ) (st : AllocState) (item : Item) : AllocState :=
  item.participants.foldl (fanStep ratio item) st

/-- The whole double fan-out loop, from the empty state. -/
def fanout (ratio : ℚ) (items : List Item) : AllocState :=
  items.foldl (fanItem ratio) ⟨[], []⟩

/-- The flush loop pushing every remaining accumulator onto the bundle lists. -/
def flushAll (st : AllocState) : ChargeMap :=
  st.parts.foldl (fun fc e => pushBundle fc e.1 e.2) st.fc

/-- The two `ZeroDivisionError` sites of `batch_receipt`. -/
inductive AllocError where
  | zeroSubtotal
  | emptyEveryoneSplit
  deriving DecidableEq

/-- `subtotal = sum(c.amount for c in receipt.items)`. -/
def subtotalOf (r : Receipt) : ℚ := (r.items.map Item.amount).sum

/-- `ratio = receipt.total / subtotal`. -/
def ratioOf (r : Receipt) : ℚ := r.total / subtotalOf r

/-- `final_charges` after fan-out and flush. -/
def rawCharges (r : Receipt) : ChargeMap := flushAll (fanout (ratioOf r) r.items)

/-- The `"\n" + f"${everyone_amount:.2f}: Everyone split"` suffix. -/
def splitLine (e : ℚ) : Str :=
  '\n' :: '$' :: fmtPlain e ++ (':' :: ' ' :: "Everyone split".data)

/-- Finalization of one bundle into an emitted `Item` (lines 114-122). -/
def emitBundle (name : Str) (itemized : Bool) (eAmt : ℚ) (p : Participant) (b : Bundle) : Item :=
  ⟨b.1 + eAmt, [p], if itemized then name ++ '\n' :: (b.2 ++ splitLine eAmt) else name⟩

/-- The emission loop and final `Receipt` construction (lines 113-123). -/
def assemble (r : Receipt) (itemized : Bool) (eAmt : ℚ) (fc : ChargeMap) : Receipt :=
  ⟨r.name, fc.flatMap (fun e => e.2.map (emitBundle r.name itemized eAmt e.1)), r.total, r.date⟩

/-- `batch_receipt` (lines 87-123 of `charge.py`). -/
def batch_receipt (r : Receipt) (itemized : Bool) : Except AllocError Receipt :=
  if subtotalOf r = 0 then .error .zeroSubtotal
  else
    let fc := rawCharges r
    match getKey fc .everyone with
    | some bs =>
        let rest := removeKey fc .everyone
        if rest.length = 0 then .error .emptyEveryoneSplit
        else .ok (assemble r itemized (((bs.map Prod.fst).sum) / (rest.length : ℚ)) rest)
    | none => .ok (assemble r itemized 0 fc)

/-- `Item.charge`: one `client.request(note, participant, price_per)` per
non-`ME` participant, in order (lines 28-35). -/
def Item.chargeRequests (it : Item) : List (Str × Participant × ℚ) :=
  (it.participants.filter (fun p => p ≠ .me)).map (fun p => (it.note, p, it.price_per))

/-- `Receipt.charge`: requests of every item, in order (lines 66-68). -/
def Receipt.chargeRequests (r : Receipt) : List (Str × Participant × ℚ) :=
  r.items.flatMap Item.chargeRequests

/-- The allocated receipt, when allocation succeeds. -/
def allocResult (r : Receipt) (itemized : Bool) : Option Receipt :=
  match batch_receipt r itemized with
  | .ok R => some R
  | .error _ => none

/-- Items of the allocated receipt (empty when allocation fails). -/
def emittedItems (r : Receipt) (itemized : Bool) : List Item :=
  ((allocResult r itemized).map Receipt.items).getD []

/-- Whether allocation succeeds. -/
def allocOk (r : Receipt) (itemized : Bool) : Bool := (allocResult r itemized).isSome

/-- `final_charges` after the `EVERYONE` key has been popped (a no-op when absent). -/
def remainingCharges (r : Receipt) : ChargeMap := removeKey (rawCharges r) .everyone

/-- The `everyone_amount` added to every emitted bundle. -/
def everyoneShareOf (r : Receipt) : ℚ :=
  match getKey (rawCharges r) .everyone with
  | some bs => ((bs.map Prod.fst).sum) / (((removeKey (rawCharges r) .everyone).length : ℚ))
  | none => 0

/-- Sum of the amounts of a bundle list. -/
def bundlesAmount (bs : List Bundle) : ℚ := (bs.map Prod.fst).sum

/-- Sum of all bundle amounts of a charge map. -/
def fcAmount (fc : ChargeMap) : ℚ := (fc.map (fun e => bundlesAmount e.2)).sum

/-- Sum of all accumulator amounts of a participants map. -/
def partsAmount (m : PartMap) : ℚ := (m.map (fun e => e.2.1)).sum

/-- Total money tracked by a fan-out state. -/
def stAmount (st : AllocState) : ℚ := partsAmount st.parts + fcAmount st.fc

/-- Money accumulated for one participant (open accumulator plus closed bundles). -/
def accAmount (st : AllocState) (p : Participant) : ℚ :=
  ((lookupP st.parts p).getD (0, [])).1 + bundlesAmount ((getKey st.fc p).getD [])

/-- Total note length accumulated for one participant. -/
def accNoteLen (st : AllocState) (p : Participant) : Nat :=
  ((lookupP st.parts p).getD (0, [])).2.length
    + ((((getKey st.fc p).getD []).map (fun b => b.2.length)).sum)

/-- Bundle amounts a charge map holds for one participant. -/
def fcAmountFor (fc : ChargeMap) (p : Participant) : ℚ :=
  bundlesAmount ((getKey fc p).getD [])

/-- Number of bundles a charge map holds for one participant. -/
def bundleCountFor (fc : ChargeMap) (p : Participant) : Nat :=
  ((getKey fc p).getD []).length

def keysP (m : PartMap) : List Participant := m.map Prod.fst

def keysC (fc : ChargeMap) : List Participant := fc.map Prod.fst

/-- Sum of emitted amounts charged to one participant. -/
def sumForParticipant (p : Participant) (items : List Item) : ℚ :=
  ((items.filter (fun it => it.participants = [p])).map Item.amount).sum

/-- The single participant of a one-participant item. -/
def soleP (it : Item) : Participant := it.participants.headI

/-- The distinct non-`ME`, non-`EVERYONE` participants occurring in a receipt. -/
def otherParticipants (r : Receipt) : List Participant :=
  ((r.items.flatMap Item.participants).dedup).filter
    (fun p => p ≠ .me ∧ p ≠ .everyone)

def pAlice : Participant := .named "alice".data

def pBob : Participant := .named "bob".data

def pCarol : Participant := .named "carol".data

/-- Worked example of spec §8. -/
def rSpecEx : Receipt :=
  ⟨"r".data,
   [⟨50, [pAlice, pBob], "Pizza".data⟩, ⟨50, [.everyone], "Soda".data⟩],
   110, 0⟩

/-- C1 counterexample input: tiny subtotal, large total, so the ratio blows
up the per-item rounding error. -/
def rLargeRatio : Receipt :=
  ⟨"r".data, [⟨1/10, [pAlice, pBob, pCarol], "A".data⟩], 1000, 0⟩

/-- C2/C3 counterexample input: `ME` shares an item, `EVERYONE` owns one. -/
def rWithMe : Receipt :=
  ⟨"r".data, [⟨10, [.me, pAlice], "A".data⟩, ⟨10, [.everyone], "B".data⟩], 20, 0⟩

/-- C4 counterexample input: a 230-character item note. -/
def rLongNote : Receipt :=
  ⟨"Dinner".data, [⟨10, [pAlice], List.replicate 230 'a'⟩], 10, 0⟩

/-- C5 failing input: the second item has an empty participant list. -/
def rEmptyItem : Receipt :=
  ⟨"r".data, [⟨10, [pAlice], "A".data⟩, ⟨5, [], "B".data⟩], 15, 0⟩

/-- C8 counterexample input: one item per participant but total ≠ subtotal. -/
def rNotFixed : Receipt :=
  ⟨"r".data, [⟨100, [pAlice], "A".data⟩], 110, 0⟩

/-- C8 amended witness input: exact cents, total = subtotal, distinct owners. -/
def rFixed : Receipt :=
  ⟨"n".data, [⟨100, [pAlice], "A".data⟩, ⟨50, [pBob], "B".data⟩], 150, 0⟩

/-- C9 witness input: every occurrence is `EVERYONE`. -/
def rAllEveryone : Receipt :=
  ⟨"r".data, [⟨10, [.everyone], "A".data⟩], 10, 0⟩

/-- Generic small witness input. -/
def rSmall : Receipt :=
  ⟨"n".data, [⟨10, [pAlice], "A".data⟩], 10, 0⟩

/-- Total number of bundles of a charge map. -/
def bundleCount (fc : ChargeMap) : Nat := (fc.map (fun e => e.2.length)).sum

/-- Every accumulator and every closed bundle holds at most 250 characters of notes. -/
def NotesBounded (st : AllocState) : Prop :=
  (∀ e ∈ st.parts, e.2.2.length ≤ 250) ∧ (∀ e ∈ st.fc, ∀ bd ∈ e.2, bd.2.length ≤ 250)

/-- The allocation of `rSmall` with `itemized = true`, written out explicitly. -/
def rSmallOut : Receipt :=
  ⟨"n".data, [⟨10, [pAlice], ("n\n\n$10.00: A\n$0.00: Everyone split").data⟩], 10, 0⟩

/-- The allocation of `rSpecEx` with `itemized = true`, written out explicitly. -/
def rSpecExOut : Receipt :=
  ⟨"r".data,
   [⟨55, [pAlice], ("r\n\n$27.50: Pizza\n$27.50: Everyone split").data⟩,
    ⟨55, [pBob], ("r\n\n$27.50: Pizza\n$27.50: Everyone split").data⟩],
   110, 0⟩

/-! ### Rounding lemmas -/

theorem roundHalfEven_sub_abs (x : ℚ) : |(roundHalfEven x : ℚ) - x| ≤ 1/2 := by
  have h0 : (⌊x⌋ : ℚ) ≤ x := Int.floor_le x
  have h1 : x < (⌊x⌋ : ℚ) + 1 := Int.lt_floor_add_one x
  unfold roundHalfEven
  split_ifs with hlt hgt heven <;> rw [abs_le] <;> push_cast <;> constructor <;> linarith

theorem round2_sub_abs (x : ℚ) : |round2 x - x| ≤ 1/200 := by
  have h := roundHalfEven_sub_abs (x * 100)
  have heq : round2 x - x = ((roundHalfEven (x * 100) : ℚ) - x * 100) / 100 := by
    unfold round2; ring
  rw [heq, abs_div]
  have h100 : |(100:ℚ)| = 100 := by norm_num
  rw [h100]
  linarith

theorem roundHalfEven_intCast (k : ℤ) : roundHalfEven (k : ℚ) = k := by
  unfold roundHalfEven
  rw [Int.floor_intCast]
  simp

theorem round2_cents (k : ℤ) : round2 ((k : ℚ) / 100) = (k : ℚ) / 100 := by
  unfold round2
  rw [div_mul_cancel₀ _ (by norm_num : (100:ℚ) ≠ 0), roundHalfEven_intCast]

/-! ### Association-list lemmas -/

@[simp] theorem keysP_nil : keysP [] = [] := rfl

@[simp] theorem keysP_cons (e : Participant × Bundle) (m : PartMap) :
    keysP (e :: m) = e.1 :: keysP m := rfl

@[simp] theorem keysC_nil : keysC [] = [] := rfl

@[simp] theorem keysC_cons (e : Participant × List Bundle) (fc : ChargeMap) :
    keysC (e :: fc) = e.1 :: keysC fc := rfl

theorem keysP_append (m l : PartMap) : keysP (m ++ l) = keysP m ++ keysP l := by
  simp [keysP]

theorem lookupP_eq_none {m : PartMap} {p : Participant} :
    lookupP m p = none ↔ p ∉ keysP m := by
  induction m with
  | nil => simp [lookupP]
  | cons e rest ih =>
    obtain ⟨q, b⟩ := e
    by_cases hq : q = p
    · subst hq; simp [lookupP]
    · simp only [lookupP, if_neg hq, keysP_cons, List.mem_cons, ih]
      constructor
      · rintro h (rfl | hmem)
        · exact hq rfl
        · exact h hmem
      · intro h hmem; exact h (Or.inr hmem)

theorem lookupP_mem {m : PartMap} {p : Participant} {b : Bundle}
    (h : lookupP m p = some b) : (p, b) ∈ m := by
  induction m with
  | nil => simp [lookupP] at h
  | cons e rest ih =>
    obtain ⟨q, b'⟩ := e
    rw [lookupP] at h
    split at h
    · rename_i hq
      injection h with h'
      subst hq; subst h'
      exact .head _
    · exact .tail _ (ih h)

theorem lookupP_append_of_none {m : PartMap} {p : Participant} (l : PartMap)
    (h : lookupP m p = none) : lookupP (m ++ l) p = lookupP l p := by
  induction m with
  | nil => simp
  | cons e rest ih =>
    obtain ⟨q, b'⟩ := e
    by_cases hq : q = p
    · simp [lookupP, if_pos hq] at h
    · simp only [lookupP, if_neg hq] at h
      simpa [lookupP, if_neg hq] using ih h

theorem lookupP_insertIfAbsent_self (m : PartMap) (p : Participant) :
    lookupP (insertIfAbsent m p) p = some ((lookupP m p).getD (0, [])) := by
  unfold insertIfAbsent
  cases h : lookupP m p with
  | none => simp [h, lookupP_append_of_none _ h, lookupP]
  | some b => simp [h]

theorem keysP_updateP (m : PartMap) (p : Participant) (b : Bundle) :
    keysP (updateP m p b) = keysP m := by
  induction m with
  | nil => rfl
  | cons e rest ih =>
    obtain ⟨q, b'⟩ := e
    by_cases hq : q = p <;> simp [updateP, hq, ih]

theorem updateP_of_none {m : PartMap} {p : Participant} (b : Bundle)
    (h : lookupP m p = none) : updateP m p b = m := by
  induction m with
  | nil => rfl
  | cons e rest ih =>
    obtain ⟨q, b'⟩ := e
    by_cases hq : q = p
    · simp [lookupP, if_pos hq] at h
    · simp only [lookupP, if_neg hq] at h
      simp [updateP, if_neg hq, ih h]

theorem lookupP_updateP_self {m : PartMap} {p : Participant} (b : Bundle)
    (h : (lookupP m p).isSome) : lookupP (updateP m p b) p = some b := by
  induction m with
  | nil => simp [lookupP] at h
  | cons e rest ih =>
    obtain ⟨q, b'⟩ := e
    by_cases hq : q = p
    · simp [updateP, if_pos hq, lookupP, hq]
    · simp only [lookupP, if_neg hq] at h
      simp [updateP, if_neg hq, lookupP, ih h]

theorem lookupP_updateP_ne {m : PartMap} {p q : Participant} (b : Bundle)
    (h : q ≠ p) : lookupP (updateP m p b) q = lookupP m q := by
  induction m with
  | nil => rfl
  | cons e rest ih =>
    obtain ⟨q', b'⟩ := e
    by_cases hq : q' = p
    · subst hq
      have hne : q' ≠ q := Ne.symm h
      simp [updateP, lookupP, hne]
    · by_cases hq2 : q' = q
      · subst hq2
        simp [updateP, if_neg hq, lookupP]
      · simp [updateP, if_neg hq, lookupP, hq2, ih]

theorem partsAmount_insertIfAbsent (m : PartMap) (p : Participant) :
    partsAmount (insertIfAbsent m p) = partsAmount m := by
  unfold insertIfAbsent
  split_ifs with h
  · rfl
  · simp [partsAmount]

theorem partsAmount_updateP {m : PartMap} {p : Participant} {b0 : Bundle} (b : Bundle)
    (h : lookupP m p = some b0) :
    partsAmount (updateP m p b) = partsAmount m - b0.1 + b.1 := by
  induction m with
  | nil => simp [lookupP] at h
  | cons e rest ih =>
    obtain ⟨q, b'⟩ := e
    rw [lookupP] at h
    split at h
    · rename_i hq
      injection h with h2
      subst h2
      subst hq
      simp only [updateP, if_pos rfl, if_true, partsAmount, List.map_cons, List.sum_cons]
      ring
    · rename_i hq
      simp only [updateP, if_neg hq, partsAmount, List.map_cons, List.sum_cons]
      have hih := ih h
      simp only [partsAmount] at hih
      rw [hih]
      ring

theorem mem_updateP {m : PartMap} {p : Participant} {b : Bundle} {e : Participant × Bundle}
    (h : e ∈ updateP m p b) : e ∈ m ∨ e = (p, b) := by
  induction m with
  | nil => simp [updateP] at h
  | cons e2 rest ih =>
    obtain ⟨q, b'⟩ := e2
    rw [updateP] at h
    split at h
    · rename_i hq
      rcases List.mem_cons.mp h with h1 | h1
      · exact .inr (hq ▸ h1)
      · exact .inl (.tail _ h1)
    · rcases List.mem_cons.mp h with h1 | h1
      · exact .inl (by rw [h1]; exact .head _)
      · rcases ih h1 with h2 | h2
        · exact .inl (.tail _ h2)
        · exact .inr h2

theorem mem_insertIfAbsent {m : PartMap} {p : Participant} {e : Participant × Bundle}
    (h : e ∈ insertIfAbsent m p) : e ∈ m ∨ e = (p, (0, [])) := by
  unfold insertIfAbsent at h
  split_ifs at h
  · exact .inl h
  · rcases List.mem_append.mp h with h' | h'
    · exact .inl h'
    · exact .inr (by simpa using h')

theorem getKey_eq_none {fc : ChargeMap} {p : Participant} :
    getKey fc p = none ↔ p ∉ keysC fc := by
  induction fc with
  | nil => simp [getKey]
  | cons e rest ih =>
    obtain ⟨q, bs⟩ := e
    by_cases hq : q = p
    · subst hq; simp [getKey]
    · simp only [getKey, if_neg hq, keysC_cons, List.mem_cons, ih]
      constructor
      · rintro h (rfl | hmem)
        · exact hq rfl
        · exact h hmem
      · intro h hmem; exact h (Or.inr hmem)

theorem getKey_mem {fc : ChargeMap} {p : Participant} {bs : List Bundle}
    (h : getKey fc p = some bs) : (p, bs) ∈ fc := by
  induction fc with
  | nil => simp [getKey] at h
  | cons e rest ih =>
    obtain ⟨q, bs'⟩ := e
    rw [getKey] at h
    split at h
    · rename_i hq
      injection h with h2
      subst h2
      subst hq
      exact .head _
    · exact .tail _ (ih h)

theorem getKey_pushBundle_self (fc : ChargeMap) (p : Participant) (b : Bundle) :
    getKey (pushBundle fc p b) p = some ((getKey fc p).getD [] ++ [b]) := by
  induction fc with
  | nil => simp [pushBundle, getKey]
  | cons e rest ih =>
    obtain ⟨q, bs⟩ := e
    by_cases hq : q = p
    · subst hq; simp [pushBundle, getKey]
    · simp [pushBundle, if_neg hq, getKey, ih]

theorem getKey_pushBundle_ne {p q : Participant} (fc : ChargeMap) (b : Bundle)
    (h : q ≠ p) : getKey (pushBundle fc p b) q = getKey fc q := by
  induction fc with
  | nil => simp [pushBundle, getKey, Ne.symm h]
  | cons e rest ih =>
    obtain ⟨q', bs⟩ := e
    by_cases hq : q' = p
    · subst hq
      have hne : q' ≠ q := Ne.symm h
      simp [pushBundle, getKey, hne]
    · by_cases hq2 : q' = q
      · subst hq2
        simp [pushBundle, if_neg hq, getKey]
      · simp [pushBundle, if_neg hq, getKey, hq2, ih]

theorem pushBundle_of_none {fc : ChargeMap} {p : Participant} (b : Bundle)
    (h : getKey fc p = none) : pushBundle fc p b = fc ++ [(p, [b])] := by
  induction fc with
  | nil => rfl
  | cons e rest ih =>
    obtain ⟨q, bs⟩ := e
    by_cases hq : q = p
    · simp [getKey, if_pos hq] at h
    · simp only [getKey, if_neg hq] at h
      simp [pushBundle, if_neg hq, ih h]

theorem keysC_pushBundle_some {fc : ChargeMap} {p : Participant} {bs : List Bundle} (b : Bundle)
    (h : getKey fc p = some bs) : keysC (pushBundle fc p b) = keysC fc := by
  induction fc with
  | nil => simp [getKey] at h
  | cons e rest ih =>
    obtain ⟨q, bs'⟩ := e
    by_cases hq : q = p
    · subst hq; simp [pushBundle]
    · simp only [getKey, if_neg hq] at h
      simp [pushBundle, if_neg hq, ih h]

theorem fcAmount_pushBundle (fc : ChargeMap) (p : Participant) (b : Bundle) :
    fcAmount (pushBundle fc p b) = fcAmount fc + b.1 := by
  induction fc with
  | nil => simp [pushBundle, fcAmount, bundlesAmount]
  | cons e rest ih =>
    obtain ⟨q, bs⟩ := e
    by_cases hq : q = p
    · subst hq
      simp [pushBundle, fcAmount, bundlesAmount]
      ring
    · simp only [pushBundle, if_neg hq, fcAmount, List.map_cons, List.sum_cons]
      simp only [fcAmount] at ih
      rw [ih]
      ring

theorem pushBundle_ne_nil (fc : ChargeMap) (p : Participant) (b : Bundle) :
    pushBundle fc p b ≠ [] := by
  cases fc with
  | nil => simp [pushBundle]
  | cons e rest =>
    obtain ⟨q, bs⟩ := e
    by_cases hq : q = p <;> simp [pushBundle, hq]

theorem removeKey_of_none {fc : ChargeMap} {p : Participant}
    (h : getKey fc p = none) : removeKey fc p = fc := by
  induction fc with
  | nil => rfl
  | cons e rest ih =>
    obtain ⟨q, bs⟩ := e
    by_cases hq : q = p
    · simp [getKey, if_pos hq] at h
    · simp only [getKey, if_neg hq] at h
      simp [removeKey, if_neg hq, ih h]

theorem getKey_removeKey_ne {p q : Participant} (fc : ChargeMap)
    (h : q ≠ p) : getKey (removeKey fc p) q = getKey fc q := by
  induction fc with
  | nil => rfl
  | cons e rest ih =>
    obtain ⟨q', bs⟩ := e
    by_cases hq : q' = p
    · subst hq
      have hne : q' ≠ q := Ne.symm h
      simp [removeKey, getKey, hne]
    · by_cases hq2 : q' = q
      · subst hq2
        simp [removeKey, if_neg hq, getKey]
      · simp [removeKey, if_neg hq, getKey, hq2, ih]

theorem keysC_removeKey_sublist (fc : ChargeMap) (p : Participant) :
    (keysC (removeKey fc p)).Sublist (keysC fc) := by
  induction fc with
  | nil => simp [removeKey]
  | cons e rest ih =>
    obtain ⟨q, bs⟩ := e
    by_cases hq : q = p
    · simp only [removeKey, if_pos hq, keysC_cons]
      exact (List.sublist_cons_self _ _)
    · simp only [removeKey, if_neg hq, keysC_cons]
      exact ih.cons₂ _

theorem mem_pushBundle_bundles {fc : ChargeMap} {p : Participant} {b : Bundle}
    {e : Participant × List Bundle} {b' : Bundle}
    (he : e ∈ pushBundle fc p b) (hb : b' ∈ e.2) :
    (∃ e0 ∈ fc, b' ∈ e0.2) ∨ b' = b := by
  induction fc with
  | nil =>
    simp only [pushBundle, List.mem_singleton] at he
    subst he
    simp only [List.mem_singleton] at hb
    exact .inr hb
  | cons e2 rest ih =>
    obtain ⟨q, bs⟩ := e2
    rw [pushBundle] at he
    split at he
    · rename_i hq
      rcases List.mem_cons.mp he with h1 | h1
      · subst h1
        rcases List.mem_append.mp hb with h2 | h2
        · exact .inl ⟨(q, bs), .head _, h2⟩
        · exact .inr (by simpa using h2)
      · exact .inl ⟨e, .tail _ h1, hb⟩
    · rcases List.mem_cons.mp he with h1 | h1
      · subst h1
        exact .inl ⟨(q, bs), .head _, hb⟩
      · rcases ih h1 with ⟨e0, he0, hb0⟩ | h2
        · exact .inl ⟨e0, .tail _ he0, hb0⟩
        · exact .inr h2

theorem mem_removeKey {fc : ChargeMap} {p : Participant} {e : Participant × List Bundle}
    (h : e ∈ removeKey fc p) : e ∈ fc := by
  induction fc with
  | nil => simp [removeKey] at h
  | cons e2 rest ih =>
    obtain ⟨q, bs⟩ := e2
    rw [removeKey] at h
    split at h
    · exact .tail _ h
    · rcases List.mem_cons.mp h with h1 | h1
      · exact h1 ▸ .head _
      · exact .tail _ (ih h1)

/-! ### Fan-out state lemmas -/

theorem stAmount_fanStep (ratio : ℚ) (item : Item) (st : AllocState) (p : Participant) :
    stAmount (fanStep ratio item st p) = stAmount st + item.price_per * ratio := by
  have hl := lookupP_insertIfAbsent_self st.parts p
  simp only [fanStep, hl, Option.getD_some]
  split_ifs with hlen
  · simp only [stAmount, fcAmount_pushBundle, partsAmount_updateP _ hl,
      partsAmount_insertIfAbsent]
    ring
  · simp only [stAmount, partsAmount_updateP _ hl, partsAmount_insertIfAbsent]
    ring

theorem stAmount_fanItem (ratio : ℚ) (st : AllocState) (item : Item) :
    stAmount (fanItem ratio st item)
      = stAmount st + (item.participants.length : ℚ) * (item.price_per * ratio) := by
  unfold fanItem
  induction item.participants generalizing st with
  | nil => simp
  | cons p ps ih =>
    rw [List.foldl_cons, ih]
    rw [stAmount_fanStep]
    simp only [List.length_cons]
    push_cast
    ring

theorem stAmount_foldl_fanItem (ratio : ℚ) (items : List Item) (st : AllocState) :
    stAmount (items.foldl (fanItem ratio) st)
      = stAmount st
        + (items.map (fun it => (it.participants.length : ℚ) * (it.price_per * ratio))).sum := by
  induction items generalizing st with
  | nil => simp
  | cons it rest ih =>
    rw [List.foldl_cons, ih, stAmount_fanItem]
    simp only [List.map_cons, List.sum_cons]
    ring

theorem stAmount_fanout (ratio : ℚ) (items : List Item) :
    stAmount (fanout ratio items)
      = (items.map (fun it => (it.participants.length : ℚ) * (it.price_per * ratio))).sum := by
  unfold fanout
  rw [stAmount_foldl_fanItem]
  simp [stAmount, partsAmount, fcAmount]

theorem fcAmount_foldl_push (parts : PartMap) (fc : ChargeMap) :
    fcAmount (parts.foldl (fun acc e => pushBundle acc e.1 e.2) fc)
      = fcAmount fc + partsAmount parts := by
  induction parts generalizing fc with
  | nil => simp [partsAmount]
  | cons e rest ih =>
    rw [List.foldl_cons, ih, fcAmount_pushBundle]
    simp only [partsAmount, List.map_cons, List.sum_cons]
    ring

theorem fcAmount_flushAll (st : AllocState) : fcAmount (flushAll st) = stAmount st := by
  unfold flushAll stAmount
  rw [fcAmount_foldl_push]
  ring

theorem lookupP_append_of_some {m : PartMap} {p : Participant} {b : Bundle} (l : PartMap)
    (h : lookupP m p = some b) : lookupP (m ++ l) p = some b := by
  induction m with
  | nil => simp [lookupP] at h
  | cons e rest ih =>
    obtain ⟨q, b'⟩ := e
    rw [lookupP] at h
    split at h
    · rename_i hq
      simp [lookupP, if_pos hq, h]
    · rename_i hq
      simpa [lookupP, if_neg hq] using ih h

theorem lookupP_insertIfAbsent_ne {p q : Participant} (m : PartMap) (h : p ≠ q) :
    lookupP (insertIfAbsent m q) p = lookupP m p := by
  unfold insertIfAbsent
  split_ifs with hs
  · rfl
  · cases hlp : lookupP m p with
    | some b => exact lookupP_append_of_some _ hlp
    | none =>
      rw [lookupP_append_of_none _ hlp]
      simp [lookupP, Ne.symm h]

theorem accAmount_fanStep (ratio : ℚ) (item : Item) (st : AllocState) (p q : Participant) :
    accAmount (fanStep ratio item st q) p
      = accAmount st p + (if p = q then item.price_per * ratio else 0) := by
  have hl := lookupP_insertIfAbsent_self st.parts q
  by_cases hpq : p = q
  · subst hpq
    have hsome : (lookupP (insertIfAbsent st.parts p) p).isSome := by rw [hl]; rfl
    simp only [fanStep, hl, Option.getD_some, if_pos rfl]
    split_ifs with hlen
    · simp only [accAmount, lookupP_updateP_self _ hsome, Option.getD_some,
        getKey_pushBundle_self, bundlesAmount, List.map_append, List.sum_append,
        List.map_cons, List.sum_cons, List.map_nil, List.sum_nil]
      ring
    · simp only [accAmount, lookupP_updateP_self _ hsome, Option.getD_some]
      ring
  · simp only [fanStep, hl, Option.getD_some]
    split_ifs with hlen
    · simp only [accAmount, lookupP_updateP_ne _ hpq, lookupP_insertIfAbsent_ne _ hpq,
        getKey_pushBundle_ne _ _ hpq, if_neg hpq]
      ring
    · simp only [accAmount, lookupP_updateP_ne _ hpq, lookupP_insertIfAbsent_ne _ hpq,
        if_neg hpq]
      ring

theorem accNoteLen_fanStep (ratio : ℚ) (item : Item) (st : AllocState) (p q : Participant) :
    accNoteLen (fanStep ratio item st q) p
      = accNoteLen st p + (if p = q then (newNote ratio item).length else 0) := by
  have hl := lookupP_insertIfAbsent_self st.parts q
  by_cases hpq : p = q
  · subst hpq
    have hsome : (lookupP (insertIfAbsent st.parts p) p).isSome := by rw [hl]; rfl
    simp only [fanStep, hl, Option.getD_some, if_pos rfl]
    split_ifs with hlen
    · simp only [accNoteLen, lookupP_updateP_self _ hsome, Option.getD_some,
        getKey_pushBundle_self, List.map_append, List.sum_append,
        List.map_cons, List.sum_cons, List.map_nil, List.sum_nil]
      omega
    · simp only [accNoteLen, lookupP_updateP_self _ hsome, Option.getD_some,
        List.length_append]
      omega
  · simp only [fanStep, hl, Option.getD_some]
    split_ifs with hlen
    · simp only [accNoteLen, lookupP_updateP_ne _ hpq, lookupP_insertIfAbsent_ne _ hpq,
        getKey_pushBundle_ne _ _ hpq, if_neg hpq]
      omega
    · simp only [accNoteLen, lookupP_updateP_ne _ hpq, lookupP_insertIfAbsent_ne _ hpq,
        if_neg hpq]
      omega

theorem accAmount_fanItem (ratio : ℚ) (item : Item) (st : AllocState) (p : Participant) :
    accAmount (fanItem ratio st item) p
      = accAmount st p + (item.participants.count p : ℚ) * (item.price_per * ratio) := by
  unfold fanItem
  induction item.participants generalizing st with
  | nil => simp
  | cons q ps ih =>
    rw [List.foldl_cons, ih, accAmount_fanStep]
    by_cases hpq : p = q
    · subst hpq
      rw [List.count_cons_self]
      simp only [if_pos rfl, if_true]
      push_cast
      ring
    · rw [List.count_cons_of_ne hpq, if_neg hpq]
      ring

theorem accNoteLen_fanItem (ratio : ℚ) (item : Item) (st : AllocState) (p : Participant) :
    accNoteLen (fanItem ratio st item) p
      = accNoteLen st p + item.participants.count p * (newNote ratio item).length := by
  unfold fanItem
  induction item.participants generalizing st with
  | nil => simp
  | cons q ps ih =>
    rw [List.foldl_cons, ih, accNoteLen_fanStep]
    by_cases hpq : p = q
    · subst hpq
      rw [List.count_cons_self]
      simp only [if_pos rfl, if_true]
      ring
    · rw [List.count_cons_of_ne hpq, if_neg hpq]
      omega

theorem accAmount_foldl_fanItem (ratio : ℚ) (items : List Item) (st : AllocState)
    (p : Participant) :
    accAmount (items.foldl (fanItem ratio) st) p
      = accAmount st p
        + (items.map (fun it => (it.participants.count p : ℚ) * (it.price_per * ratio))).sum := by
  induction items generalizing st with
  | nil => simp
  | cons it rest ih =>
    rw [List.foldl_cons, ih, accAmount_fanItem]
    simp only [List.map_cons, List.sum_cons]
    ring

theorem accAmount_fanout (ratio : ℚ) (items : List Item) (p : Participant) :
    accAmount (fanout ratio items) p
      = (items.map (fun it => (it.participants.count p : ℚ) * (it.price_per * ratio))).sum := by
  unfold fanout
  rw [accAmount_foldl_fanItem]
  simp [accAmount, lookupP, getKey, bundlesAmount]

theorem accNoteLen_foldl_fanItem (ratio : ℚ) (items : List Item) (st : AllocState)
    (p : Participant) :
    accNoteLen (items.foldl (fanItem ratio) st) p
      = accNoteLen st p
        + (items.map (fun it => it.participants.count p * (newNote ratio it).length)).sum := by
  induction items generalizing st with
  | nil => simp
  | cons it rest ih =>
    rw [List.foldl_cons, ih, accNoteLen_fanItem]
    simp only [List.map_cons, List.sum_cons]
    ring

theorem accNoteLen_fanout (ratio : ℚ) (items : List Item) (p : Participant) :
    accNoteLen (fanout ratio items) p
      = (items.map (fun it => it.participants.count p * (newNote ratio it).length)).sum := by
  unfold fanout
  rw [accNoteLen_foldl_fanItem]
  simp [accNoteLen, lookupP, getKey]

/-! ### Key uniqueness invariants -/

theorem keysC_append (fc l : ChargeMap) : keysC (fc ++ l) = keysC fc ++ keysC l := by
  simp [keysC]

theorem insertIfAbsent_keysP_nodup {m : PartMap} (p : Participant)
    (h : (keysP m).Nodup) : (keysP (insertIfAbsent m p)).Nodup := by
  unfold insertIfAbsent
  split_ifs with hs
  · exact h
  · have hnone : lookupP m p = none := by
      cases hl : lookupP m p
      · rfl
      · rw [hl] at hs; simp at hs
    have hnm : p ∉ keysP m := lookupP_eq_none.mp hnone
    rw [keysP_append]
    simp [List.nodup_append, h, hnm]

theorem fanStep_keysP_nodup (ratio : ℚ) (item : Item) (st : AllocState) (p : Participant)
    (h : (keysP st.parts).Nodup) : (keysP (fanStep ratio item st p).parts).Nodup := by
  have hins := insertIfAbsent_keysP_nodup p h
  simp only [fanStep]
  split_ifs with hlen <;> simpa [keysP_updateP] using hins

theorem pushBundle_keysC_nodup (fc : ChargeMap) (p : Participant) (b : Bundle)
    (h : (keysC fc).Nodup) : (keysC (pushBundle fc p b)).Nodup := by
  cases hg : getKey fc p with
  | some bs => rwa [keysC_pushBundle_some _ hg]
  | none =>
    rw [pushBundle_of_none _ hg, keysC_append]
    have hnm : p ∉ keysC fc := getKey_eq_none.mp hg
    simp [List.nodup_append, h, hnm]

theorem fanStep_keysC_nodup (ratio : ℚ) (item : Item) (st : AllocState) (p : Participant)
    (h : (keysC st.fc).Nodup) : (keysC (fanStep ratio item st p).fc).Nodup := by
  simp only [fanStep]
  split_ifs with hlen
  · exact pushBundle_keysC_nodup _ _ _ h
  · exact h

theorem fanItem_keys_nodup (ratio : ℚ) (item : Item) (st : AllocState)
    (h : (keysP st.parts).Nodup ∧ (keysC st.fc).Nodup) :
    (keysP (fanItem ratio st item).parts).Nodup ∧ (keysC (fanItem ratio st item).fc).Nodup := by
  unfold fanItem
  induction item.participants generalizing st with
  | nil => exact h
  | cons q ps ih =>
    rw [List.foldl_cons]
    exact ih _ ⟨fanStep_keysP_nodup _ _ _ _ h.1, fanStep_keysC_nodup _ _ _ _ h.2⟩

theorem fanout_keys_nodup (ratio : ℚ) (items : List Item) :
    (keysP (fanout ratio items).parts).Nodup ∧ (keysC (fanout ratio items).fc).Nodup := by
  unfold fanout
  have hgen : ∀ st : AllocState, (keysP st.parts).Nodup ∧ (keysC st.fc).Nodup →
      (keysP (items.foldl (fanItem ratio) st).parts).Nodup
        ∧ (keysC (items.foldl (fanItem ratio) st).fc).Nodup := by
    induction items with
    | nil => exact fun st h => h
    | cons it rest ih =>
      intro st h
      rw [List.foldl_cons]
      exact ih _ (fanItem_keys_nodup _ _ _ h)
  exact hgen ⟨[], []⟩ (by simp)

theorem foldl_push_keysC_nodup (parts : PartMap) (fc : ChargeMap)
    (h : (keysC fc).Nodup) :
    (keysC (parts.foldl (fun acc e => pushBundle acc e.1 e.2) fc)).Nodup := by
  induction parts generalizing fc with
  | nil => exact h
  | cons e rest ih =>
    rw [List.foldl_cons]
    exact ih _ (pushBundle_keysC_nodup _ _ _ h)

theorem rawCharges_keysC_nodup (r : Receipt) : (keysC (rawCharges r)).Nodup := by
  unfold rawCharges flushAll
  exact foldl_push_keysC_nodup _ _ (fanout_keys_nodup _ _).2

/-! ### Structure of a successful allocation -/

theorem batch_ok_elim {r : Receipt} {b : Bool} {R : Receipt}
    (h : batch_receipt r b = .ok R) :
    subtotalOf r ≠ 0 ∧ R = assemble r b (everyoneShareOf r) (remainingCharges r) := by
  simp only [batch_receipt] at h
  split at h
  · exact absurd h (by simp)
  · rename_i hz
    refine ⟨hz, ?_⟩
    split at h
    · rename_i bs hg
      split at h
      · exact absurd h (by simp)
      · injection h with h2
        rw [← h2]
        unfold everyoneShareOf remainingCharges
        rw [hg]
    · rename_i hg
      injection h with h2
      rw [← h2]
      unfold everyoneShareOf remainingCharges
      rw [hg, removeKey_of_none hg]

theorem batch_ok_of_no_everyone {r : Receipt} {b : Bool}
    (hz : subtotalOf r ≠ 0) (hg : getKey (rawCharges r) .everyone = none) :
    batch_receipt r b = .ok (assemble r b 0 (rawCharges r)) := by
  simp only [batch_receipt, if_neg hz, hg]

theorem mem_assemble_items {r : Receipt} {b : Bool} {e : ℚ} {fc : ChargeMap} {it : Item} :
    it ∈ (assemble r b e fc).items
      ↔ ∃ x ∈ fc, ∃ bnd ∈ x.2, it = emitBundle r.name b e x.1 bnd := by
  simp only [assemble, List.mem_flatMap, List.mem_map]
  constructor
  · rintro ⟨x, hx, bnd, hbnd, rfl⟩
    exact ⟨x, hx, bnd, hbnd, rfl⟩
  · rintro ⟨x, hx, bnd, hbnd, rfl⟩
    exact ⟨x, hx, bnd, hbnd, rfl⟩

theorem emit_amounts_sum (name : Str) (b : Bool) (e : ℚ) (p : Participant) (bs : List Bundle) :
    (((bs.map (emitBundle name b e p)).map Item.amount)).sum
      = bundlesAmount bs + e * (bs.length : ℚ) := by
  induction bs with
  | nil => simp [bundlesAmount]
  | cons bd rest ih =>
    simp only [List.map_cons, List.sum_cons, bundlesAmount, List.length_cons] at ih ⊢
    rw [ih]
    simp only [emitBundle]
    push_cast
    ring

theorem amountsSum_assemble (r : Receipt) (b : Bool) (e : ℚ) (fc : ChargeMap) :
    ((assemble r b e fc).items.map Item.amount).sum
      = fcAmount fc + e * (bundleCount fc : ℚ) := by
  unfold assemble
  induction fc with
  | nil => simp [fcAmount, bundleCount]
  | cons en rest ih =>
    simp only [List.flatMap_cons, List.map_append, List.sum_append, fcAmount, bundleCount,
      List.map_cons, List.sum_cons] at ih ⊢
    rw [ih, emit_amounts_sum]
    push_cast
    ring

/-! ### Note-length invariant -/

theorem notesBounded_fanStep {ratio : ℚ} {item : Item} {st : AllocState} (p : Participant)
    (hnn : (newNote ratio item).length ≤ 250) (h : NotesBounded st) :
    NotesBounded (fanStep ratio item st p) := by
  obtain ⟨hp, hf⟩ := h
  have hab : ((lookupP (insertIfAbsent st.parts p) p).getD (0, [])).2.length ≤ 250 := by
    rw [lookupP_insertIfAbsent_self]
    cases hl : lookupP st.parts p with
    | none => simp
    | some b0 => simpa using hp _ (lookupP_mem hl)
  have hm : ∀ e ∈ insertIfAbsent st.parts p, e.2.2.length ≤ 250 := by
    intro e he
    rcases mem_insertIfAbsent he with h1 | h1
    · exact hp e h1
    · subst h1; simp
  simp only [fanStep]
  split_ifs with hlen
  · constructor
    · intro e he
      rcases mem_updateP he with h1 | h1
      · exact hm e h1
      · subst h1; simpa using hnn
    · intro e he bd hbd
      rcases mem_pushBundle_bundles he hbd with ⟨e0, he0, hb0⟩ | h1
      · exact hf e0 he0 bd hb0
      · subst h1; exact hab
  · constructor
    · intro e he
      rcases mem_updateP he with h1 | h1
      · exact hm e h1
      · subst h1
        simp only [List.length_append]
        omega
    · exact hf

theorem notesBounded_fanItem {ratio : ℚ} {item : Item} {st : AllocState}
    (hnn : (newNote ratio item).length ≤ 250) (h : NotesBounded st) :
    NotesBounded (fanItem ratio st item) := by
  unfold fanItem
  induction item.participants generalizing st with
  | nil => exact h
  | cons q ps ih =>
    rw [List.foldl_cons]
    exact ih (notesBounded_fanStep q hnn h)

theorem notesBounded_fanout {ratio : ℚ} {items : List Item}
    (h : ∀ it ∈ items, (newNote ratio it).length ≤ 250) :
    NotesBounded (fanout ratio items) := by
  unfold fanout
  have hgen : ∀ st : AllocState, NotesBounded st →
      NotesBounded (items.foldl (fanItem ratio) st) := by
    induction items with
    | nil => exact fun st hst => hst
    | cons it rest ih =>
      intro st hst
      rw [List.foldl_cons]
      exact ih (fun x hx => h x (.tail _ hx)) _ (notesBounded_fanItem (h it (.head _)) hst)
  exact hgen ⟨[], []⟩ (by constructor <;> simp)

theorem foldl_push_bounded (parts : PartMap) (fc : ChargeMap)
    (hp : ∀ e ∈ parts, e.2.2.length ≤ 250)
    (hf : ∀ e ∈ fc, ∀ bd ∈ e.2, bd.2.length ≤ 250) :
    ∀ e ∈ parts.foldl (fun acc x => pushBundle acc x.1 x.2) fc, ∀ bd ∈ e.2,
      bd.2.length ≤ 250 := by
  induction parts generalizing fc with
  | nil => exact hf
  | cons x rest ih =>
    rw [List.foldl_cons]
    apply ih
    · intro e he; exact hp e (.tail _ he)
    · intro e he bd hbd
      rcases mem_pushBundle_bundles he hbd with ⟨e0, he0, hb0⟩ | h1
      · exact hf e0 he0 bd hb0
      · subst h1; exact hp x (.head _)

theorem rawCharges_notes_bounded {r : Receipt}
    (h : ∀ it ∈ r.items, (newNote (ratioOf r) it).length ≤ 250) :
    ∀ e ∈ rawCharges r, ∀ bd ∈ e.2, bd.2.length ≤ 250 := by
  unfold rawCharges flushAll
  have hb := notesBounded_fanout h
  exact foldl_push_bounded _ _ hb.1 hb.2

/-! ### Miscellaneous list lemmas -/

theorem list_abs_sum_le (l : List ℚ) : |l.sum| ≤ (l.map (fun x => |x|)).sum := by
  induction l with
  | nil => simp
  | cons x rest ih =>
    simp only [List.sum_cons, List.map_cons]
    calc |x + rest.sum| ≤ |x| + |rest.sum| := abs_add _ _
      _ ≤ |x| + (rest.map (fun x => |x|)).sum := by linarith

theorem length_updateP (m : PartMap) (p : Participant) (b : Bundle) :
    (updateP m p b).length = m.length := by
  induction m with
  | nil => rfl
  | cons e rest ih =>
    obtain ⟨q, b'⟩ := e
    by_cases hq : q = p <;> simp [updateP, hq, ih]

theorem fanStep_parts_ne_nil (ratio : ℚ) (item : Item) (st : AllocState) (p : Participant) :
    (fanStep ratio item st p).parts ≠ [] := by
  have hl := lookupP_insertIfAbsent_self st.parts p
  have hne : insertIfAbsent st.parts p ≠ [] := by
    intro hcon
    rw [hcon] at hl
    simp [lookupP] at hl
  simp only [fanStep]
  split_ifs with hlen <;>
    · intro hcon
      simp only at hcon
      have hlu := congrArg List.length hcon
      rw [length_updateP] at hlu
      simp only [List.length_nil] at hlu
      exact hne (List.length_eq_zero.mp hlu)

theorem getKey_append_of_none {fc : ChargeMap} {p : Participant} (l : ChargeMap)
    (h : getKey fc p = none) : getKey (fc ++ l) p = getKey l p := by
  induction fc with
  | nil => simp
  | cons e rest ih =>
    obtain ⟨q, bs⟩ := e
    by_cases hq : q = p
    · simp [getKey, if_pos hq] at h
    · simp only [getKey, if_neg hq] at h
      simpa [getKey, if_neg hq] using ih h

theorem updateP_append_last {m : PartMap} {p : Participant} (b0 b : Bundle)
    (hm : lookupP m p = none) : updateP (m ++ [(p, b0)]) p b = m ++ [(p, b)] := by
  induction m with
  | nil => simp [updateP]
  | cons e rest ih =>
    obtain ⟨q, b1⟩ := e
    rw [lookupP] at hm
    split at hm
    · exact absurd hm (by simp)
    · rename_i hq
      simp only [List.cons_append, updateP, if_neg hq, List.append_eq]
      rw [ih hm]

/-! ### All-everyone receipts reach the empty-split division -/

theorem fanStep_everyone_shape {ratio : ℚ} {item : Item} {st : AllocState}
    (hp : st.parts = [] ∨ ∃ bd, st.parts = [(Participant.everyone, bd)])
    (hf : st.fc = [] ∨ ∃ bs, st.fc = [(Participant.everyone, bs)]) :
    (∃ bd, (fanStep ratio item st .everyone).parts = [(Participant.everyone, bd)])
      ∧ ((fanStep ratio item st .everyone).fc = []
          ∨ ∃ bs, (fanStep ratio item st .everyone).fc = [(Participant.everyone, bs)]) := by
  have hfc : ∀ b : Bundle, pushBundle st.fc .everyone b = []
      ∨ ∃ bs, pushBundle st.fc .everyone b = [(Participant.everyone, bs)] := by
    intro b
    rcases hf with h1 | ⟨bs, h1⟩ <;> rw [h1] <;> right
    · exact ⟨[b], rfl⟩
    · exact ⟨bs ++ [b], by simp [pushBundle]⟩
  rcases hp with h1 | ⟨bd, h1⟩
  · have hins : insertIfAbsent st.parts .everyone = [(Participant.everyone, (0, []))] := by
      rw [h1]; simp [insertIfAbsent, lookupP]
    simp only [fanStep, hins, lookupP, reduceIte, Option.getD_some]
    split_ifs with hlen
    · exact ⟨⟨(item.price_per * ratio, newNote ratio item), by simp [updateP]⟩, hfc _⟩
    · exact ⟨⟨(item.price_per * ratio, newNote ratio item), by simp [updateP]⟩, hf⟩
  · have hins : insertIfAbsent st.parts .everyone = [(Participant.everyone, bd)] := by
      rw [h1]; simp [insertIfAbsent, lookupP]
    simp only [fanStep, hins, lookupP, reduceIte, Option.getD_some]
    split_ifs with hlen
    · exact ⟨⟨(item.price_per * ratio, newNote ratio item), by simp [updateP]⟩, hfc _⟩
    · exact ⟨⟨(bd.1 + item.price_per * ratio, bd.2 ++ newNote ratio item),
        by simp [updateP]⟩, hf⟩

theorem foldl_fanStep_parts_ne_nil {ratio : ℚ} {item : Item} (l : List Participant)
    {st : AllocState} (h : st.parts ≠ []) :
    (l.foldl (fanStep ratio item) st).parts ≠ [] := by
  induction l generalizing st with
  | nil => exact h
  | cons q ps ih =>
    rw [List.foldl_cons]
    exact ih (fanStep_parts_ne_nil ratio item st q)

theorem fanItem_parts_ne_nil {ratio : ℚ} {item : Item} {st : AllocState}
    (h : st.parts ≠ []) : (fanItem ratio st item).parts ≠ [] :=
  foldl_fanStep_parts_ne_nil _ h

theorem foldl_fanStep_everyone_shape {ratio : ℚ} {item : Item} (l : List Participant)
    (hall : ∀ p ∈ l, p = Participant.everyone) {st : AllocState}
    (hp : st.parts = [] ∨ ∃ bd, st.parts = [(Participant.everyone, bd)])
    (hf : st.fc = [] ∨ ∃ bs, st.fc = [(Participant.everyone, bs)]) :
    ((l.foldl (fanStep ratio item) st).parts = []
        ∨ ∃ bd, (l.foldl (fanStep ratio item) st).parts = [(Participant.everyone, bd)])
      ∧ ((l.foldl (fanStep ratio item) st).fc = []
          ∨ ∃ bs, (l.foldl (fanStep ratio item) st).fc = [(Participant.everyone, bs)])
      ∧ (l ≠ [] → (l.foldl (fanStep ratio item) st).parts ≠ []) := by
  induction l generalizing st with
  | nil => exact ⟨hp, hf, fun hcon => absurd rfl hcon⟩
  | cons q ps ih =>
    have hq := hall q (.head _)
    subst hq
    rw [List.foldl_cons]
    have hstep := @fanStep_everyone_shape ratio item st hp hf
    have hrec := ih (fun p hp2 => hall p (.tail _ hp2)) (.inr hstep.1) hstep.2
    refine ⟨hrec.1, hrec.2.1, fun _ => ?_⟩
    by_cases hps : ps = []
    · rw [hps, List.foldl_nil]
      exact fanStep_parts_ne_nil ratio item st _
    · exact hrec.2.2 hps

theorem fanItem_everyone_shape {ratio : ℚ} {item : Item} {st : AllocState}
    (hall : ∀ p ∈ item.participants, p = Participant.everyone)
    (hp : st.parts = [] ∨ ∃ bd, st.parts = [(Participant.everyone, bd)])
    (hf : st.fc = [] ∨ ∃ bs, st.fc = [(Participant.everyone, bs)]) :
    ((fanItem ratio st item).parts = []
        ∨ ∃ bd, (fanItem ratio st item).parts = [(Participant.everyone, bd)])
      ∧ ((fanItem ratio st item).fc = []
          ∨ ∃ bs, (fanItem ratio st item).fc = [(Participant.everyone, bs)])
      ∧ (item.participants ≠ [] → (fanItem ratio st item).parts ≠ []) :=
  foldl_fanStep_everyone_shape _ hall hp hf

theorem fanout_everyone_shape {ratio : ℚ} {items : List Item}
    (hall : ∀ it ∈ items, ∀ p ∈ it.participants, p = Participant.everyone)
    (hne : ∃ it ∈ items, it.participants ≠ []) :
    (∃ bd, (fanout ratio items).parts = [(Participant.everyone, bd)])
      ∧ ((fanout ratio items).fc = []
          ∨ ∃ bs, (fanout ratio items).fc = [(Participant.everyone, bs)]) := by
  unfold fanout
  have hgen : ∀ (l : List Item) (st : AllocState),
      (∀ it ∈ l, ∀ p ∈ it.participants, p = Participant.everyone) →
      (st.parts = [] ∨ ∃ bd, st.parts = [(Participant.everyone, bd)]) →
      (st.fc = [] ∨ ∃ bs, st.fc = [(Participant.everyone, bs)]) →
      ((l.foldl (fanItem ratio) st).parts = []
          ∨ ∃ bd, (l.foldl (fanItem ratio) st).parts = [(Participant.everyone, bd)])
        ∧ ((l.foldl (fanItem ratio) st).fc = []
            ∨ ∃ bs, (l.foldl (fanItem ratio) st).fc = [(Participant.everyone, bs)])
        ∧ ((st.parts ≠ [] ∨ ∃ it ∈ l, it.participants ≠ [])
            → (l.foldl (fanItem ratio) st).parts ≠ []) := by
    intro l
    induction l with
    | nil =>
      intro st h1 h2 h3
      refine ⟨h2, h3, ?_⟩
      rintro (h4 | ⟨it, hit, _⟩)
      · exact h4
      · simp at hit
    | cons it rest ih =>
      intro st h1 h2 h3
      rw [List.foldl_cons]
      have hit := @fanItem_everyone_shape ratio it st (h1 it (.head _)) h2 h3
      have hrec := ih _ (fun x hx => h1 x (.tail _ hx)) hit.1 hit.2.1
      refine ⟨hrec.1, hrec.2.1, ?_⟩
      rintro (h4 | ⟨x, hx, hxne⟩)
      · exact hrec.2.2 (.inl (fanItem_parts_ne_nil h4))
      · rcases List.mem_cons.mp hx with rfl | hx2
        · exact hrec.2.2 (.inl (hit.2.2 hxne))
        · exact hrec.2.2 (.inr ⟨x, hx2, hxne⟩)
  obtain ⟨h1, h2, h3⟩ := hgen items ⟨[], []⟩ hall (.inl rfl) (.inl rfl)
  have hne2 := h3 (.inr hne)
  rcases h1 with h1 | h1
  · exact absurd h1 hne2
  · exact ⟨h1, h2⟩

theorem rawCharges_all_everyone {r : Receipt}
    (hall : ∀ it ∈ r.items, ∀ p ∈ it.participants, p = Participant.everyone)
    (hne : ∃ it ∈ r.items, it.participants ≠ []) :
    ∃ bs, rawCharges r = [(Participant.everyone, bs)] := by
  obtain ⟨⟨bd, hparts⟩, hfc⟩ := @fanout_everyone_shape (ratioOf r) r.items hall hne
  unfold rawCharges flushAll
  rw [hparts]
  rcases hfc with h1 | ⟨bs, h1⟩ <;> rw [h1]
  · exact ⟨[bd], by simp [pushBundle]⟩
  · exact ⟨bs ++ [bd], by simp [pushBundle]⟩

theorem batch_all_everyone_error {r : Receipt} {b : Bool}
    (hz : subtotalOf r ≠ 0)
    (hall : ∀ it ∈ r.items, ∀ p ∈ it.participants, p = Participant.everyone)
    (hne : ∃ it ∈ r.items, it.participants ≠ []) :
    batch_receipt r b = .error .emptyEveryoneSplit := by
  obtain ⟨bs, hraw⟩ := rawCharges_all_everyone hall hne
  simp [batch_receipt, if_neg hz, hraw, getKey, removeKey]

/-! ### Keys absent from the fan-out never appear -/

theorem fanStep_lookup_none {ratio : ℚ} {item : Item} {st : AllocState} {p x : Participant}
    (hx : x ≠ p) (h1 : lookupP st.parts x = none) (h2 : getKey st.fc x = none) :
    lookupP (fanStep ratio item st p).parts x = none
      ∧ getKey (fanStep ratio item st p).fc x = none := by
  simp only [fanStep]
  split_ifs with hlen
  · exact ⟨by rw [lookupP_updateP_ne _ hx, lookupP_insertIfAbsent_ne _ hx]; exact h1,
      by rw [getKey_pushBundle_ne _ _ hx]; exact h2⟩
  · exact ⟨by rw [lookupP_updateP_ne _ hx, lookupP_insertIfAbsent_ne _ hx]; exact h1, h2⟩

theorem foldl_fanStep_lookup_none {ratio : ℚ} {item : Item} (l : List Participant)
    {st : AllocState} {x : Participant} (hx : x ∉ l)
    (h1 : lookupP st.parts x = none) (h2 : getKey st.fc x = none) :
    lookupP ((l.foldl (fanStep ratio item) st)).parts x = none
      ∧ getKey ((l.foldl (fanStep ratio item) st)).fc x = none := by
  induction l generalizing st with
  | nil => exact ⟨h1, h2⟩
  | cons q ps ih =>
    rw [List.foldl_cons]
    have hxq : x ≠ q := fun hc => hx (hc ▸ .head _)
    have hstep := @fanStep_lookup_none ratio item st q x hxq h1 h2
    exact ih (fun hc => hx (.tail _ hc)) hstep.1 hstep.2

theorem fanout_lookup_none {ratio : ℚ} {items : List Item} {x : Participant}
    (hx : ∀ it ∈ items, x ∉ it.participants) :
    lookupP (fanout ratio items).parts x = none
      ∧ getKey (fanout ratio items).fc x = none := by
  unfold fanout
  have hgen : ∀ (l : List Item) (st : AllocState),
      (∀ it ∈ l, x ∉ it.participants) →
      lookupP st.parts x = none → getKey st.fc x = none →
      lookupP (l.foldl (fanItem ratio) st).parts x = none
        ∧ getKey (l.foldl (fanItem ratio) st).fc x = none := by
    intro l
    induction l with
    | nil => exact fun st _ h1 h2 => ⟨h1, h2⟩
    | cons it rest ih =>
      intro st hl h1 h2
      rw [List.foldl_cons]
      have hstep := @foldl_fanStep_lookup_none ratio it it.participants st x (hl it (.head _)) h1 h2
      exact ih _ (fun y hy => hl y (.tail _ hy)) hstep.1 hstep.2
  exact hgen items ⟨[], []⟩ hx rfl rfl

theorem foldl_push_getKey_none (parts : PartMap) (fc : ChargeMap) {x : Participant}
    (hp : lookupP parts x = none) (hf : getKey fc x = none) :
    getKey (parts.foldl (fun acc e => pushBundle acc e.1 e.2) fc) x = none := by
  induction parts generalizing fc with
  | nil => exact hf
  | cons e rest ih =>
    obtain ⟨q, b⟩ := e
    rw [lookupP] at hp
    split at hp
    · exact absurd hp (by simp)
    · rename_i hq
      rw [List.foldl_cons]
      exact ih _ hp (by rw [getKey_pushBundle_ne _ _ (Ne.symm hq)]; exact hf)

theorem rawCharges_getKey_none {r : Receipt} {x : Participant}
    (hx : ∀ it ∈ r.items, x ∉ it.participants) :
    getKey (rawCharges r) x = none := by
  unfold rawCharges flushAll
  have h := @fanout_lookup_none (ratioOf r) r.items x hx
  exact foldl_push_getKey_none _ _ h.1 h.2

/-! ### Per-item rounding error -/

theorem item_share_err {it : Item} (h : it.participants ≠ []) :
    |(it.participants.length : ℚ) * it.price_per - it.amount|
      ≤ (it.participants.length : ℚ) / 200 := by
  have hlen : it.participants.length ≠ 0 := fun hc => h (List.length_eq_zero.mp hc)
  have hn : (0:ℚ) < (it.participants.length : ℚ) := by
    exact_mod_cast Nat.pos_of_ne_zero hlen
  have hr := round2_sub_abs (it.amount / (it.participants.length : ℚ))
  have hx : (it.participants.length : ℚ) * (it.amount / (it.participants.length : ℚ))
      = it.amount := by
    field_simp
  have key : (it.participants.length : ℚ) * it.price_per - it.amount
      = (it.participants.length : ℚ)
        * (round2 (it.amount / (it.participants.length : ℚ))
            - it.amount / (it.participants.length : ℚ)) := by
    rw [Item.price_per, mul_sub, hx]
  rw [key, abs_mul, abs_of_pos hn]
  calc (it.participants.length : ℚ)
        * |round2 (it.amount / (it.participants.length : ℚ))
            - it.amount / (it.participants.length : ℚ)|
      ≤ (it.participants.length : ℚ) * (1/200) :=
        mul_le_mul_of_nonneg_left hr (le_of_lt hn)
    _ = (it.participants.length : ℚ) / 200 := by ring

theorem list_sum_map_sub (l : List Item) (f g : Item → ℚ) :
    (l.map (fun x => f x - g x)).sum = (l.map f).sum - (l.map g).sum := by
  induction l with
  | nil => simp
  | cons x rest ih =>
    simp only [List.map_cons, List.sum_cons, ih]
    ring

theorem list_sum_map_div (l : List Item) (f : Item → ℚ) (c : ℚ) :
    (l.map (fun x => f x / c)).sum = (l.map f).sum / c := by
  induction l with
  | nil => simp
  | cons x rest ih =>
    simp only [List.map_cons, List.sum_cons, ih]
    ring

/-! ### Fan-out of distinct one-participant items -/

theorem fanStep_fresh {ratio : ℚ} {item : Item} {st : AllocState} {p : Participant}
    (hfresh : lookupP st.parts p = none)
    (hlen : (newNote ratio item).length ≤ 249) :
    fanStep ratio item st p
      = ⟨st.parts ++ [(p, (item.price_per * ratio, newNote ratio item))], st.fc⟩ := by
  have hins : insertIfAbsent st.parts p = st.parts ++ [(p, (0, []))] := by
    unfold insertIfAbsent
    rw [hfresh]
    simp
  have hlook : lookupP (insertIfAbsent st.parts p) p = some (0, []) := by
    rw [hins, lookupP_append_of_none _ hfresh]
    simp [lookupP]
  simp only [fanStep, hlook, Option.getD_some]
  rw [if_neg (by simp only [List.length_nil]; omega)]
  rw [hins, updateP_append_last _ _ hfresh]
  simp

theorem foldl_fanItem_singletons (ratio : ℚ) (items : List Item) (st : AllocState)
    (hshape : ∀ it ∈ items, it.participants = [soleP it])
    (hfresh : ∀ it ∈ items, lookupP st.parts (soleP it) = none)
    (hnd : (items.map soleP).Nodup)
    (hlen : ∀ it ∈ items, (newNote ratio it).length ≤ 249) :
    items.foldl (fanItem ratio) st
      = ⟨st.parts
          ++ items.map (fun it => (soleP it, (it.price_per * ratio, newNote ratio it))),
         st.fc⟩ := by
  induction items generalizing st with
  | nil => simp
  | cons it rest ih =>
    rw [List.foldl_cons]
    have hone : fanItem ratio st it
        = ⟨st.parts ++ [(soleP it, (it.price_per * ratio, newNote ratio it))], st.fc⟩ := by
      unfold fanItem
      rw [hshape it (.head _), List.foldl_cons, List.foldl_nil]
      exact fanStep_fresh (hfresh it (.head _)) (hlen it (.head _))
    rw [hone]
    simp only [List.map_cons, List.nodup_cons] at hnd
    rw [ih _ (fun x hx => hshape x (.tail _ hx))
        (by
          intro x hx
          have hx1 := hfresh x (.tail _ hx)
          have hx2 : soleP x ≠ soleP it := by
            intro hc
            exact hnd.1 (hc ▸ List.mem_map_of_mem soleP hx)
          rw [lookupP_append_of_none _ hx1]
          simp [lookupP, Ne.symm hx2])
        hnd.2 (fun x hx => hlen x (.tail _ hx))]
    simp

theorem foldl_push_fresh (parts : PartMap) (fc : ChargeMap)
    (hfresh : ∀ e ∈ parts, getKey fc e.1 = none) (hnd : (keysP parts).Nodup) :
    parts.foldl (fun acc x => pushBundle acc x.1 x.2) fc
      = fc ++ parts.map (fun e => (e.1, [e.2])) := by
  induction parts generalizing fc with
  | nil => simp
  | cons x rest ih =>
    rw [List.foldl_cons, pushBundle_of_none _ (hfresh x (.head _))]
    simp only [keysP_cons, List.nodup_cons] at hnd
    rw [ih _ (by
        intro e he
        have he1 := hfresh e (.tail _ he)
        have he2 : e.1 ≠ x.1 := by
          intro hc
          exact hnd.1 (hc ▸ List.mem_map_of_mem Prod.fst he)
        rw [getKey_append_of_none _ he1]
        simp [getKey, Ne.symm he2])
      hnd.2]
    simp

theorem assemble_amounts_singletons (r : Receipt) (b : Bool) (e : ℚ)
    (l : List (Participant × Bundle)) :
    ((assemble r b e (l.map (fun x => (x.1, [x.2])))).items.map Item.amount)
      = l.map (fun x => x.2.1 + e) := by
  unfold assemble
  induction l with
  | nil => simp
  | cons x rest ih =>
    simp only [List.map_cons, List.flatMap_cons, List.map_append] at ih ⊢
    rw [ih]
    simp [emitBundle]

/-! ### Per-participant emitted sums -/

theorem sumFor_append (p : Participant) (l1 l2 : List Item) :
    sumForParticipant p (l1 ++ l2) = sumForParticipant p l1 + sumForParticipant p l2 := by
  unfold sumForParticipant
  rw [List.filter_append, List.map_append, List.sum_append]

theorem sumFor_emit_self (name : Str) (b : Bool) (e : ℚ) (p : Participant) (bs : List Bundle) :
    sumForParticipant p (bs.map (emitBundle name b e p))
      = bundlesAmount bs + e * (bs.length : ℚ) := by
  unfold sumForParticipant
  induction bs with
  | nil => simp [bundlesAmount]
  | cons bd rest ih =>
    simp only [List.map_cons, List.filter_cons, bundlesAmount, List.length_cons] at ih ⊢
    rw [if_pos (by simp [emitBundle])]
    simp only [List.map_cons, List.sum_cons]
    rw [ih]
    simp only [emitBundle, bundlesAmount]
    push_cast
    ring

theorem sumFor_emit_ne (name : Str) (b : Bool) (e : ℚ) {p q : Participant}
    (h : q ≠ p) (bs : List Bundle) :
    sumForParticipant p (bs.map (emitBundle name b e q)) = 0 := by
  unfold sumForParticipant
  induction bs with
  | nil => simp
  | cons bd rest ih =>
    simp only [List.map_cons, List.filter_cons] at ih ⊢
    rw [if_neg (by simp [emitBundle, h])]
    exact ih

theorem sumFor_flatMap_not_mem {fc : ChargeMap} {p : Participant} (r : Receipt) (b : Bool)
    (e : ℚ) (hp : p ∉ keysC fc) :
    sumForParticipant p (fc.flatMap (fun x => x.2.map (emitBundle r.name b e x.1))) = 0 := by
  induction fc with
  | nil => simp [sumForParticipant]
  | cons x rest ih =>
    simp only [keysC_cons, List.mem_cons, not_or] at hp
    rw [List.flatMap_cons, sumFor_append, sumFor_emit_ne _ _ _ (Ne.symm hp.1),
      ih hp.2, add_zero]

theorem sumFor_assemble {fc : ChargeMap} (r : Receipt) (b : Bool) (e : ℚ) (p : Participant)
    (hnd : (keysC fc).Nodup) :
    sumForParticipant p (assemble r b e fc).items
      = fcAmountFor fc p + e * (bundleCountFor fc p : ℚ) := by
  unfold assemble
  induction fc with
  | nil => simp [sumForParticipant, fcAmountFor, bundleCountFor, getKey, bundlesAmount]
  | cons x rest ih =>
    obtain ⟨q, bs⟩ := x
    simp only [keysC_cons, List.nodup_cons] at hnd
    simp only [List.flatMap_cons]
    rw [sumFor_append]
    by_cases hq : q = p
    · subst hq
      rw [sumFor_emit_self, sumFor_flatMap_not_mem r b e hnd.1]
      simp only [fcAmountFor, bundleCountFor, getKey, reduceIte, Option.getD_some]
      ring
    · rw [sumFor_emit_ne _ _ _ hq, ih hnd.2]
      simp only [fcAmountFor, bundleCountFor, getKey, if_neg hq]
      ring

theorem list_sum_map_mul (l : List Item) (f : Item → ℚ) (c : ℚ) :
    (l.map (fun x => c * f x)).sum = c * (l.map f).sum := by
  induction l with
  | nil => simp
  | cons x rest ih =>
    simp only [List.map_cons, List.sum_cons, ih]
    ring

theorem chargeRequests_no_me (R : Receipt) : ∀ x ∈ R.chargeRequests, x.2.1 ≠ .me := by
  intro x hx
  simp only [Receipt.chargeRequests, List.mem_flatMap] at hx
  obtain ⟨it, hit, hx2⟩ := hx
  simp only [Item.chargeRequests, List.mem_map, List.mem_filter] at hx2
  obtain ⟨p, ⟨hp1, hp2⟩, rfl⟩ := hx2
  simpa using hp2

theorem emitted_sum_no_everyone {r : Receipt} {b : Bool}
    (hz : subtotalOf r ≠ 0)
    (hne : ∀ it ∈ r.items, it.participants ≠ [])
    (hev : ∀ it ∈ r.items, Participant.everyone ∉ it.participants) :
    allocOk r b = true
    ∧ |((emittedItems r b).map Item.amount).sum - r.total|
        ≤ |ratioOf r| * ((r.items.map (fun it => (it.participants.length : ℚ))).sum) / 200 := by
  have hok : batch_receipt r b = .ok (assemble r b 0 (rawCharges r)) :=
    batch_ok_of_no_everyone hz (rawCharges_getKey_none hev)
  have hitems : emittedItems r b = (assemble r b 0 (rawCharges r)).items := by
    unfold emittedItems allocResult
    rw [hok]
    rfl
  refine ⟨by unfold allocOk allocResult; rw [hok]; rfl, ?_⟩
  rw [hitems, amountsSum_assemble]
  rw [zero_mul, add_zero]
  have hsum : fcAmount (rawCharges r)
      = (r.items.map (fun it =>
          (it.participants.length : ℚ) * (it.price_per * ratioOf r))).sum := by
    unfold rawCharges
    rw [fcAmount_flushAll, stAmount_fanout]
  rw [hsum]
  have htot : r.total = ratioOf r * subtotalOf r := by
    rw [ratioOf, div_mul_cancel₀ _ hz]
  have hfactor : (r.items.map (fun it =>
        (it.participants.length : ℚ) * (it.price_per * ratioOf r))).sum
      = ratioOf r * (r.items.map (fun it =>
          (it.participants.length : ℚ) * it.price_per)).sum := by
    rw [← list_sum_map_mul]
    congr 1
    apply List.map_congr_left
    intro it hit
    ring
  rw [hfactor, htot, subtotalOf]
  have hdiff : ratioOf r * (r.items.map (fun it =>
        (it.participants.length : ℚ) * it.price_per)).sum
      - ratioOf r * (r.items.map Item.amount).sum
      = ratioOf r * (r.items.map (fun it =>
          (it.participants.length : ℚ) * it.price_per - it.amount)).sum := by
    rw [list_sum_map_sub]
    ring
  rw [hdiff, abs_mul]
  have hbound : |(r.items.map (fun it =>
        (it.participants.length : ℚ) * it.price_per - it.amount)).sum|
      ≤ ((r.items.map (fun it => (it.participants.length : ℚ))).sum) / 200 := by
    calc |(r.items.map (fun it =>
            (it.participants.length : ℚ) * it.price_per - it.amount)).sum|
        ≤ ((r.items.map (fun it =>
            (it.participants.length : ℚ) * it.price_per - it.amount)).map
              (fun x => |x|)).sum := list_abs_sum_le _
      _ = (r.items.map (fun it =>
            |(it.participants.length : ℚ) * it.price_per - it.amount|)).sum := by
          rw [List.map_map]; rfl
      _ ≤ (r.items.map (fun it => (it.participants.length : ℚ) / 200)).sum := by
          apply List.sum_le_sum
          intro it hit
          exact item_share_err (hne it hit)
      _ = ((r.items.map (fun it => (it.participants.length : ℚ))).sum) / 200 :=
          list_sum_map_div _ _ _
  calc |ratioOf r| * |(r.items.map (fun it =>
        (it.participants.length : ℚ) * it.price_per - it.amount)).sum|
      ≤ |ratioOf r| * (((r.items.map (fun it => (it.participants.length : ℚ))).sum) / 200) :=
        mul_le_mul_of_nonneg_left hbound (abs_nonneg _)
    _ = |ratioOf r| * ((r.items.map (fun it => (it.participants.length : ℚ))).sum) / 200 := by
        ring

theorem batch_fixed_point {r : Receipt} {b : Bool}
    (hshape : ∀ it ∈ r.items, it.participants = [soleP it])
    (hnd : (r.items.map soleP).Nodup)
    (hev : ∀ it ∈ r.items, soleP it ≠ .everyone)
    (hcents : ∀ it ∈ r.items, ∃ k : ℤ, it.amount = (k : ℚ) / 100)
    (hz : subtotalOf r ≠ 0)
    (htot : r.total = subtotalOf r)
    (hlen : ∀ it ∈ r.items, (newNote (ratioOf r) it).length ≤ 249) :
    allocOk r b = true
    ∧ (emittedItems r b).map Item.amount = r.items.map Item.amount := by
  have hratio : ratioOf r = 1 := by rw [ratioOf, htot]; exact div_self hz
  have hfan : fanout (ratioOf r) r.items
      = ⟨r.items.map (fun it =>
          (soleP it, (it.price_per * ratioOf r, newNote (ratioOf r) it))), []⟩ := by
    unfold fanout
    rw [foldl_fanItem_singletons (ratioOf r) r.items ⟨[], []⟩ hshape (fun it hit => rfl) hnd hlen]
    simp
  have hkeys : keysP (r.items.map (fun it =>
      (soleP it, (it.price_per * ratioOf r, newNote (ratioOf r) it)))) = r.items.map soleP := by
    unfold keysP
    rw [List.map_map]
    rfl
  have hraw : rawCharges r
      = (r.items.map (fun it =>
          (soleP it, (it.price_per * ratioOf r, newNote (ratioOf r) it)))).map
            (fun e => (e.1, [e.2])) := by
    unfold rawCharges flushAll
    rw [hfan]
    rw [foldl_push_fresh _ ([] : ChargeMap) (fun e he => rfl) (by rw [hkeys]; exact hnd)]
    simp
  have hevraw : getKey (rawCharges r) .everyone = none := by
    rw [getKey_eq_none, hraw]
    have hkk : keysC ((r.items.map (fun it =>
        (soleP it, (it.price_per * ratioOf r, newNote (ratioOf r) it)))).map
          (fun e => (e.1, [e.2]))) = r.items.map soleP := by
      unfold keysC
      rw [List.map_map, List.map_map]
      rfl
    rw [hkk]
    intro hmem
    obtain ⟨it, hit, hc⟩ := List.mem_map.mp hmem
    exact hev it hit hc
  have hok : batch_receipt r b = .ok (assemble r b 0 (rawCharges r)) :=
    batch_ok_of_no_everyone hz hevraw
  have hitems : emittedItems r b = (assemble r b 0 (rawCharges r)).items := by
    unfold emittedItems allocResult
    rw [hok]
    rfl
  refine ⟨by unfold allocOk allocResult; rw [hok]; rfl, ?_⟩
  rw [hitems, hraw, assemble_amounts_singletons, List.map_map]
  apply List.map_congr_left
  intro it hit
  simp only [Function.comp]
  rw [add_zero, hratio, mul_one, Item.price_per, hshape it hit]
  obtain ⟨k, hk⟩ := hcents it hit
  simp only [List.length_cons, List.length_nil]
  rw [show ((0 + 1 : ℕ) : ℚ) = 1 by norm_num, div_one, hk, round2_cents]

/-! ### Claim theorems -/

/-- C1 counterexample: for the receipt with items `[(0.10, [alice, bob, carol], "A")]`
and total `1000`, allocation succeeds, emits three bundles summing to `900`, and
`|900 - 1000| = 100` is far beyond the claimed epsilon `0.01 * 3`. -/
theorem spec_C1_counterexample :
    allocOk rLargeRatio true = true
    ∧ (∀ it ∈ rLargeRatio.items, it.participants ≠ [])
    ∧ subtotalOf rLargeRatio ≠ 0
    ∧ ((emittedItems rLargeRatio true).map Item.amount).sum = 900
    ∧ (emittedItems rLargeRatio true).length = 3
    ∧ ¬ (|((emittedItems rLargeRatio true).map Item.amount).sum - rLargeRatio.total|
          ≤ (1/100) * ((emittedItems rLargeRatio true).length : ℚ)) := by
  have h1 : ((emittedItems rLargeRatio true).map Item.amount).sum = 900 := by
    norm_num +decide [allocOk, allocResult, emittedItems, batch_receipt, rLargeRatio, subtotalOf,
      ratioOf, rawCharges, fanout, fanItem, fanStep, flushAll, insertIfAbsent, lookupP, updateP,
      pushBundle, getKey, removeKey, assemble, emitBundle, newNote, splitLine, fmtComma, fmtPlain,
      roundHalfEven, Item.price_per, round2, padTwo, commaRev, pAlice, pBob, pCarol]
  have h2 : (emittedItems rLargeRatio true).length = 3 := by
    norm_num +decide [allocOk, allocResult, emittedItems, batch_receipt, rLargeRatio, subtotalOf,
      ratioOf, rawCharges, fanout, fanItem, fanStep, flushAll, insertIfAbsent, lookupP, updateP,
      pushBundle, getKey, removeKey, assemble, emitBundle, newNote, splitLine, fmtComma, fmtPlain,
      roundHalfEven, Item.price_per, round2, padTwo, commaRev, pAlice, pBob, pCarol]
  have h3 : allocOk rLargeRatio true = true := by
    norm_num +decide [allocOk, allocResult, emittedItems, batch_receipt, rLargeRatio, subtotalOf,
      ratioOf, rawCharges, fanout, fanItem, fanStep, flushAll, insertIfAbsent, lookupP, updateP,
      pushBundle, getKey, removeKey, assemble, emitBundle, newNote, splitLine, fmtComma, fmtPlain,
      roundHalfEven, Item.price_per, round2, padTwo, commaRev, pAlice, pBob, pCarol]
  refine ⟨h3, by decide, by norm_num [subtotalOf, rLargeRatio], h1, h2, ?_⟩
  rw [h1, h2]
  intro hcon
  rw [show rLargeRatio.total = 1000 from rfl, abs_le] at hcon
  have := hcon.1
  norm_num at this

/-- C1 (amended): for accepted receipts (non-zero subtotal, non-empty participant
lists) with no `Everyone` occurrence, the emitted amounts sum differs from the
receipt total by at most `|ratio| * (total participant occurrences) / 200`; the
spec's `0.01 * bundles` epsilon ignores the `total/subtotal` scaling. -/
theorem spec_C1_amended {r : Receipt} {b : Bool}
    (hz : subtotalOf r ≠ 0)
    (hne : ∀ it ∈ r.items, it.participants ≠ [])
    (hev : ∀ it ∈ r.items, Participant.everyone ∉ it.participants) :
    allocOk r b = true
    ∧ |((emittedItems r b).map Item.amount).sum - r.total|
        ≤ |ratioOf r| * ((r.items.map (fun it => (it.participants.length : ℚ))).sum) / 200 :=
  emitted_sum_no_everyone hz hne hev

/-- C1 witness: the amended bound instantiated at a concrete one-item receipt. -/
theorem spec_C1_witness :
    (subtotalOf rSmall ≠ 0
      ∧ (∀ it ∈ rSmall.items, it.participants ≠ [])
      ∧ (∀ it ∈ rSmall.items, Participant.everyone ∉ it.participants))
    ∧ (allocOk rSmall true = true
      ∧ |((emittedItems rSmall true).map Item.amount).sum - rSmall.total|
          ≤ |ratioOf rSmall|
            * ((rSmall.items.map (fun it => (it.participants.length : ℚ))).sum) / 200) :=
  ⟨⟨by norm_num [subtotalOf, rSmall], by decide, by decide⟩,
    spec_C1_amended (by norm_num [subtotalOf, rSmall]) (by decide) (by decide)⟩

/-- C2 counterexample: `batch_receipt` does not exclude `ME` from fan-out; for the
receipt `[(10, [me, alice], "A"), (10, [everyone], "B")]` the returned Receipt
contains an Item whose participant is `ME`. -/
theorem spec_C2_counterexample :
    allocOk rWithMe true = true
    ∧ Participant.me ∈ (emittedItems rWithMe true).flatMap Item.participants := by
  constructor <;>
    norm_num +decide [allocOk, allocResult, emittedItems, batch_receipt, rWithMe, subtotalOf,
      ratioOf, rawCharges, fanout, fanItem, fanStep, flushAll, insertIfAbsent, lookupP, updateP,
      pushBundle, getKey, removeKey, assemble, emitBundle, newNote, splitLine, fmtComma, fmtPlain,
      roundHalfEven, Item.price_per, round2, padTwo, commaRev, pAlice]

/-- C2 (amended): `ME` may appear as a participant of emitted Items (fan-out does
not exclude it), but the charge step (`Item.charge`) skips `ME`, so no charge
request of the allocated Receipt ever names `ME`. -/
theorem spec_C2_amended {r : Receipt} {b : Bool} {R : Receipt}
    (_h : batch_receipt r b = .ok R) :
    ∀ x ∈ R.chargeRequests, x.2.1 ≠ Participant.me :=
  fun x hx => chargeRequests_no_me R x hx

/-- C2 witness: the amended claim instantiated at a concrete allocation. -/
theorem spec_C2_witness :
    batch_receipt rSmall true = .ok rSmallOut
    ∧ ∀ x ∈ rSmallOut.chargeRequests, x.2.1 ≠ Participant.me := by
  have hok : batch_receipt rSmall true = .ok rSmallOut := by
    norm_num +decide [batch_receipt, rSmall, rSmallOut, subtotalOf,
      ratioOf, rawCharges, fanout, fanItem, fanStep, flushAll, insertIfAbsent, lookupP, updateP,
      pushBundle, getKey, removeKey, assemble, emitBundle, newNote, splitLine, fmtComma, fmtPlain,
      roundHalfEven, Item.price_per, round2, padTwo, commaRev, pAlice]
  exact ⟨hok, spec_C2_amended hok⟩

/-- C3 counterexample: with `ME` present, the everyone split is divided by the
number of all non-`Everyone` participant keys (`ME` included), not by the
non-`ME` count: alice's emitted total is `10`, not `5 + 10/1 = 15`. -/
theorem spec_C3_counterexample :
    allocOk rWithMe true = true
    ∧ sumForParticipant pAlice (emittedItems rWithMe true) = 10
    ∧ fcAmountFor (rawCharges rWithMe) pAlice = 5
    ∧ bundlesAmount ((getKey (rawCharges rWithMe) .everyone).getD []) = 10
    ∧ (otherParticipants rWithMe).length = 1
    ∧ ¬ (sumForParticipant pAlice (emittedItems rWithMe true)
          = fcAmountFor (rawCharges rWithMe) pAlice
            + bundlesAmount ((getKey (rawCharges rWithMe) .everyone).getD [])
              / ((otherParticipants rWithMe).length : ℚ)) := by
  have h1 : sumForParticipant pAlice (emittedItems rWithMe true) = 10 := by
    norm_num +decide [allocOk, allocResult, emittedItems, batch_receipt, rWithMe, subtotalOf,
      ratioOf, rawCharges, fanout, fanItem, fanStep, flushAll, insertIfAbsent, lookupP, updateP,
      pushBundle, getKey, removeKey, assemble, emitBundle, newNote, splitLine, fmtComma, fmtPlain,
      roundHalfEven, Item.price_per, round2, padTwo, commaRev, pAlice, sumForParticipant]
  have h2 : fcAmountFor (rawCharges rWithMe) pAlice = 5 := by
    norm_num +decide [batch_receipt, rWithMe, subtotalOf,
      ratioOf, rawCharges, fanout, fanItem, fanStep, flushAll, insertIfAbsent, lookupP, updateP,
      pushBundle, getKey, removeKey, newNote, fmtComma, fmtPlain,
      roundHalfEven, Item.price_per, round2, padTwo, commaRev, pAlice, fcAmountFor, bundlesAmount]
  have h3 : bundlesAmount ((getKey (rawCharges rWithMe) .everyone).getD []) = 10 := by
    norm_num +decide [batch_receipt, rWithMe, subtotalOf,
      ratioOf, rawCharges, fanout, fanItem, fanStep, flushAll, insertIfAbsent, lookupP, updateP,
      pushBundle, getKey, removeKey, newNote, fmtComma, fmtPlain,
      roundHalfEven, Item.price_per, round2, padTwo, commaRev, pAlice, bundlesAmount]
  have h4 : (otherParticipants rWithMe).length = 1 := by
    norm_num +decide [otherParticipants, rWithMe, pAlice, List.dedup]
  have h5 : allocOk rWithMe true = true := by
    norm_num +decide [allocOk, allocResult, batch_receipt, rWithMe, subtotalOf,
      ratioOf, rawCharges, fanout, fanItem, fanStep, flushAll, insertIfAbsent, lookupP, updateP,
      pushBundle, getKey, removeKey, assemble, emitBundle, newNote, splitLine, fmtComma, fmtPlain,
      roundHalfEven, Item.price_per, round2, padTwo, commaRev, pAlice]
  refine ⟨h5, h1, h2, h3, h4, ?_⟩
  rw [h1, h2, h3, h4]
  norm_num

/-- C3 (amended): when `Everyone` owns bundles, its aggregate is divided by the
number of remaining participant keys (which includes `ME` when present), and the
share is added once per bundle: for every participant `p ≠ Everyone`, the sum of
`p`'s emitted amounts equals `p`'s fan-out total plus `share * (number of p's
bundles)`. -/
theorem spec_C3_amended {r : Receipt} {b : Bool} {R : Receipt} {bs : List Bundle}
    (h : batch_receipt r b = .ok R)
    (hev : getKey (rawCharges r) .everyone = some bs) :
    ∀ p : Participant, p ≠ .everyone →
      sumForParticipant p R.items
        = fcAmountFor (rawCharges r) p
          + (((bs.map Prod.fst).sum) / ((remainingCharges r).length : ℚ))
            * (bundleCountFor (rawCharges r) p : ℚ) := by
  obtain ⟨hz, hR⟩ := batch_ok_elim h
  subst hR
  intro p hp
  have hnd : (keysC (remainingCharges r)).Nodup :=
    (keysC_removeKey_sublist _ _).nodup (rawCharges_keysC_nodup r)
  rw [sumFor_assemble _ _ _ _ hnd]
  have hfc : fcAmountFor (remainingCharges r) p = fcAmountFor (rawCharges r) p := by
    unfold fcAmountFor remainingCharges
    rw [getKey_removeKey_ne _ hp]
  have hcnt : bundleCountFor (remainingCharges r) p = bundleCountFor (rawCharges r) p := by
    unfold bundleCountFor remainingCharges
    rw [getKey_removeKey_ne _ hp]
  rw [hfc, hcnt]
  have hshare : everyoneShareOf r
      = ((bs.map Prod.fst).sum) / ((remainingCharges r).length : ℚ) := by
    unfold everyoneShareOf remainingCharges
    rw [hev]
  rw [hshare]

/-- C3 witness: the amended claim instantiated on the spec's worked example. -/
theorem spec_C3_witness :
    batch_receipt rSpecEx true = .ok rSpecExOut
    ∧ getKey (rawCharges rSpecEx) .everyone = some [(55, ("\n$55.00: Soda").data)]
    ∧ pAlice ≠ Participant.everyone
    ∧ sumForParticipant pAlice rSpecExOut.items
        = fcAmountFor (rawCharges rSpecEx) pAlice
          + (((([(55, ("\n$55.00: Soda").data)] : List Bundle).map Prod.fst).sum)
              / ((remainingCharges rSpecEx).length : ℚ))
            * (bundleCountFor (rawCharges rSpecEx) pAlice : ℚ) := by
  have hok : batch_receipt rSpecEx true = .ok rSpecExOut := by
    norm_num +decide [batch_receipt, rSpecEx, rSpecExOut, subtotalOf,
      ratioOf, rawCharges, fanout, fanItem, fanStep, flushAll, insertIfAbsent, lookupP, updateP,
      pushBundle, getKey, removeKey, assemble, emitBundle, newNote, splitLine, fmtComma, fmtPlain,
      roundHalfEven, Item.price_per, round2, padTwo, commaRev, pAlice, pBob]
  have hev : getKey (rawCharges rSpecEx) .everyone = some [(55, ("\n$55.00: Soda").data)] := by
    norm_num +decide [rSpecEx, subtotalOf,
      ratioOf, rawCharges, fanout, fanItem, fanStep, flushAll, insertIfAbsent, lookupP, updateP,
      pushBundle, getKey, newNote, fmtComma, fmtPlain,
      roundHalfEven, Item.price_per, round2, padTwo, commaRev, pAlice, pBob]
  exact ⟨hok, hev, by decide, spec_C3_amended hok hev pAlice (by decide)⟩

/-- C4 counterexample: finalization appends the receipt name and the everyone-split
line after the 250-character cap was enforced, so for a single 239-character
fan-out line the emitted note has length 268 > 250. -/
theorem spec_C4_counterexample :
    (∀ it ∈ rLongNote.items, (newNote (ratioOf rLongNote) it).length ≤ 250)
    ∧ (emittedItems rLongNote true).map (fun it => it.note.length) = [268]
    ∧ ¬ (∀ it ∈ emittedItems rLongNote true, it.note.length ≤ 250) := by
  have h1 : ∀ it ∈ rLongNote.items, (newNote (ratioOf rLongNote) it).length ≤ 250 := by
    norm_num +decide [rLongNote, subtotalOf, ratioOf, newNote, fmtComma, fmtPlain,
      roundHalfEven, Item.price_per, round2, padTwo, commaRev, pAlice,
      List.length_append, List.length_replicate]
  have h2 : (emittedItems rLongNote true).map (fun it => it.note.length) = [268] := by
    norm_num +decide [allocOk, allocResult, emittedItems, batch_receipt, rLongNote, subtotalOf,
      ratioOf, rawCharges, fanout, fanItem, fanStep, flushAll, insertIfAbsent, lookupP, updateP,
      pushBundle, getKey, removeKey, assemble, emitBundle, newNote, splitLine, fmtComma, fmtPlain,
      roundHalfEven, Item.price_per, round2, padTwo, commaRev, pAlice,
      List.length_append, List.length_replicate]
  refine ⟨h1, h2, ?_⟩
  intro hcon
  have h4 : ∀ n ∈ (emittedItems rLongNote true).map (fun it => it.note.length), n ≤ 250 := by
    intro n hn
    obtain ⟨it, hit, rfl⟩ := List.mem_map.mp hn
    exact hcon it hit
  rw [h2] at h4
  exact absurd (h4 268 (.head _)) (by norm_num)

/-- C4 (amended): the 250-character cap governs the accumulated fan-out lines;
when no single fan-out line exceeds 250 characters, every emitted itemized note
is bounded by `len(name) + 1 + 250 + len(everyone-split line)`, and every
non-itemized note is exactly the receipt name. -/
theorem spec_C4_amended {r : Receipt} {b : Bool} {R : Receipt}
    (h : batch_receipt r b = .ok R)
    (hlines : ∀ it ∈ r.items, (newNote (ratioOf r) it).length ≤ 250) :
    ∀ it ∈ R.items,
      (b = true → it.note.length
          ≤ r.name.length + 1 + 250 + (splitLine (everyoneShareOf r)).length)
      ∧ (b = false → it.note = r.name) := by
  obtain ⟨hz, hR⟩ := batch_ok_elim h
  subst hR
  intro it hit
  rcases mem_assemble_items.mp hit with ⟨x, hx, bnd, hbnd, rfl⟩
  have hb : bnd.2.length ≤ 250 :=
    rawCharges_notes_bounded hlines _ (mem_removeKey hx) bnd hbnd
  constructor
  · rintro rfl
    simp only [emitBundle, reduceIte, List.length_append, List.length_cons]
    omega
  · rintro rfl
    simp [emitBundle]

/-- C4 witness: the amended bound instantiated at a concrete allocation. -/
theorem spec_C4_witness :
    (batch_receipt rSmall true = .ok rSmallOut
      ∧ (∀ it ∈ rSmall.items, (newNote (ratioOf rSmall) it).length ≤ 250))
    ∧ ∀ it ∈ rSmallOut.items,
        (true = true → it.note.length
            ≤ rSmall.name.length + 1 + 250 + (splitLine (everyoneShareOf rSmall)).length)
        ∧ (true = false → it.note = rSmall.name) := by
  have hok : batch_receipt rSmall true = .ok rSmallOut := by
    norm_num +decide [batch_receipt, rSmall, rSmallOut, subtotalOf,
      ratioOf, rawCharges, fanout, fanItem, fanStep, flushAll, insertIfAbsent, lookupP, updateP,
      pushBundle, getKey, removeKey, assemble, emitBundle, newNote, splitLine, fmtComma, fmtPlain,
      roundHalfEven, Item.price_per, round2, padTwo, commaRev, pAlice]
  have hlines : ∀ it ∈ rSmall.items, (newNote (ratioOf rSmall) it).length ≤ 250 := by
    norm_num +decide [rSmall, subtotalOf, ratioOf, newNote, fmtComma, fmtPlain,
      roundHalfEven, Item.price_per, round2, padTwo, commaRev, pAlice]
  exact ⟨⟨hok, hlines⟩, spec_C4_amended hok hlines⟩

/-- C5: contrary to the claim, an Item with an empty participant list does not
abort `batch_receipt`: the inner fan-out loop never runs for it (so `price_per`
is never evaluated) and the item is silently skipped, while a zero subtotal does
abort before any bundle exists. Evaluated at the failing input `rEmptyItem`. -/
theorem spec_C5_code_eval :
    subtotalOf rEmptyItem ≠ 0
    ∧ rEmptyItem.items.any (fun it => it.participants.isEmpty) = true
    ∧ allocOk rEmptyItem true = true
    ∧ (emittedItems rEmptyItem true).map Item.participants = [[pAlice]]
    ∧ batch_receipt ⟨"z".data, [⟨0, [pAlice], "A".data⟩], 5, 0⟩ true
        = .error .zeroSubtotal := by
  refine ⟨by norm_num [subtotalOf, rEmptyItem], by decide, ?_, ?_, ?_⟩ <;>
    norm_num +decide [allocOk, allocResult, emittedItems, batch_receipt, rEmptyItem, subtotalOf,
      ratioOf, rawCharges, fanout, fanItem, fanStep, flushAll, insertIfAbsent, lookupP, updateP,
      pushBundle, getKey, removeKey, assemble, emitBundle, newNote, splitLine, fmtComma, fmtPlain,
      roundHalfEven, Item.price_per, round2, padTwo, commaRev, pAlice]

/-- C6: when `itemized` is false every emitted note equals exactly the receipt
name; when `itemized` is true every emitted note is the receipt name prepended
to one bundle's fan-out lines followed by the everyone-split annotation line. -/
theorem spec_C6_notes {r : Receipt} {b : Bool} {R : Receipt}
    (h : batch_receipt r b = .ok R) :
    ∀ it ∈ R.items,
      (b = false → it.note = r.name)
      ∧ (b = true → ∃ x ∈ remainingCharges r, ∃ bnd ∈ x.2,
          it.note = r.name ++ '\n' :: (bnd.2 ++ splitLine (everyoneShareOf r))) := by
  obtain ⟨hz, hR⟩ := batch_ok_elim h
  subst hR
  intro it hit
  rcases mem_assemble_items.mp hit with ⟨x, hx, bnd, hbnd, rfl⟩
  constructor
  · rintro rfl
    simp [emitBundle]
  · rintro rfl
    exact ⟨x, hx, bnd, hbnd, by simp [emitBundle]⟩

/-- C6 witness: the note-shape claim instantiated at a concrete allocation. -/
theorem spec_C6_witness :
    batch_receipt rSmall true = .ok rSmallOut
    ∧ ∀ it ∈ rSmallOut.items,
        (true = false → it.note = rSmall.name)
        ∧ (true = true → ∃ x ∈ remainingCharges rSmall, ∃ bnd ∈ x.2,
            it.note = rSmall.name ++ '\n' :: (bnd.2 ++ splitLine (everyoneShareOf rSmall))) := by
  have hok : batch_receipt rSmall true = .ok rSmallOut := by
    norm_num +decide [batch_receipt, rSmall, rSmallOut, subtotalOf,
      ratioOf, rawCharges, fanout, fanItem, fanStep, flushAll, insertIfAbsent, lookupP, updateP,
      pushBundle, getKey, removeKey, assemble, emitBundle, newNote, splitLine, fmtComma, fmtPlain,
      roundHalfEven, Item.price_per, round2, padTwo, commaRev, pAlice]
  exact ⟨hok, spec_C6_notes hok⟩

/-- C7: a successful allocation returns a new Receipt with the same name, total
and date, and every emitted Item carries a single-element participant list (the
input is untouched: the embedding is a pure function of it). -/
theorem spec_C7_frame {r : Receipt} {b : Bool} {R : Receipt}
    (h : batch_receipt r b = .ok R) :
    R.name = r.name ∧ R.total = r.total ∧ R.date = r.date
      ∧ ∀ it ∈ R.items, it.participants.length = 1 := by
  obtain ⟨hz, hR⟩ := batch_ok_elim h
  subst hR
  refine ⟨rfl, rfl, rfl, ?_⟩
  intro it hit
  rcases mem_assemble_items.mp hit with ⟨x, hx, bnd, hbnd, rfl⟩
  simp [emitBundle]

/-- C7 witness: the frame claim instantiated at a concrete allocation. -/
theorem spec_C7_witness :
    batch_receipt rSmall true = .ok rSmallOut
    ∧ (rSmallOut.name = rSmall.name ∧ rSmallOut.total = rSmall.total
        ∧ rSmallOut.date = rSmall.date
        ∧ ∀ it ∈ rSmallOut.items, it.participants.length = 1) := by
  have hok : batch_receipt rSmall true = .ok rSmallOut := by
    norm_num +decide [batch_receipt, rSmall, rSmallOut, subtotalOf,
      ratioOf, rawCharges, fanout, fanItem, fanStep, flushAll, insertIfAbsent, lookupP, updateP,
      pushBundle, getKey, removeKey, assemble, emitBundle, newNote, splitLine, fmtComma, fmtPlain,
      roundHalfEven, Item.price_per, round2, padTwo, commaRev, pAlice]
  exact ⟨hok, spec_C7_frame hok⟩

/-- C8 counterexample: an already-allocated-shaped receipt (one participant per
item, no `Everyone`, non-zero subtotal) whose total differs from its subtotal is
re-scaled by `ratio = 110/100`, so re-running allocation changes the amount from
`100` to `110`. -/
theorem spec_C8_counterexample :
    (∀ it ∈ rNotFixed.items, it.participants.length = 1)
    ∧ (∀ it ∈ rNotFixed.items, Participant.everyone ∉ it.participants)
    ∧ subtotalOf rNotFixed ≠ 0
    ∧ (emittedItems rNotFixed true).map Item.amount = [110]
    ∧ rNotFixed.items.map Item.amount = [100]
    ∧ ¬ ((emittedItems rNotFixed true).map Item.amount
          = rNotFixed.items.map Item.amount) := by
  have h1 : (emittedItems rNotFixed true).map Item.amount = [110] := by
    norm_num +decide [allocOk, allocResult, emittedItems, batch_receipt, rNotFixed, subtotalOf,
      ratioOf, rawCharges, fanout, fanItem, fanStep, flushAll, insertIfAbsent, lookupP, updateP,
      pushBundle, getKey, removeKey, assemble, emitBundle, newNote, splitLine, fmtComma, fmtPlain,
      roundHalfEven, Item.price_per, round2, padTwo, commaRev, pAlice]
  have h2 : rNotFixed.items.map Item.amount = [100] := by
    norm_num [rNotFixed]
  refine ⟨by decide, by decide, by norm_num [subtotalOf, rNotFixed], h1, h2, ?_⟩
  rw [h1, h2]
  intro hcon
  have hcon2 : (110 : ℚ) = 100 := (List.cons.injEq _ _ _ _).mp hcon |>.1
  norm_num at hcon2

/-- C8 (amended): re-running allocation is a fixed point on amounts only under
the conditions the scaling and merging force: one participant per item with all
participants distinct and different from `Everyone`, exact-cent amounts, total
equal to subtotal, and fan-out lines short enough not to overflow a fresh
accumulator. -/
theorem spec_C8_amended {r : Receipt} {b : Bool}
    (hshape : ∀ it ∈ r.items, it.participants = [soleP it])
    (hnd : (r.items.map soleP).Nodup)
    (hev : ∀ it ∈ r.items, soleP it ≠ .everyone)
    (hcents : ∀ it ∈ r.items, ∃ k : ℤ, it.amount = (k : ℚ) / 100)
    (hz : subtotalOf r ≠ 0)
    (htot : r.total = subtotalOf r)
    (hlen : ∀ it ∈ r.items, (newNote (ratioOf r) it).length ≤ 249) :
    allocOk r b = true
    ∧ (emittedItems r b).map Item.amount = r.items.map Item.amount :=
  batch_fixed_point hshape hnd hev hcents hz htot hlen

/-- C8 witness: the amended fixed point instantiated at a two-item receipt. -/
theorem spec_C8_witness :
    ((∀ it ∈ rFixed.items, it.participants = [soleP it])
      ∧ (rFixed.items.map soleP).Nodup
      ∧ (∀ it ∈ rFixed.items, soleP it ≠ .everyone)
      ∧ (∀ it ∈ rFixed.items, ∃ k : ℤ, it.amount = (k : ℚ) / 100)
      ∧ subtotalOf rFixed ≠ 0
      ∧ rFixed.total = subtotalOf rFixed
      ∧ (∀ it ∈ rFixed.items, (newNote (ratioOf rFixed) it).length ≤ 249))
    ∧ (allocOk rFixed true = true
      ∧ (emittedItems rFixed true).map Item.amount = rFixed.items.map Item.amount) := by
  have hcents : ∀ it ∈ rFixed.items, ∃ k : ℤ, it.amount = (k : ℚ) / 100 := by
    intro it hit
    simp only [rFixed, List.mem_cons, List.mem_singleton] at hit
    rcases hit with rfl | rfl | h
    · exact ⟨10000, by norm_num⟩
    · exact ⟨5000, by norm_num⟩
    · simp at h
  have hz : subtotalOf rFixed ≠ 0 := by norm_num [subtotalOf, rFixed]
  have htot : rFixed.total = subtotalOf rFixed := by norm_num [subtotalOf, rFixed]
  have hlen : ∀ it ∈ rFixed.items, (newNote (ratioOf rFixed) it).length ≤ 249 := by
    norm_num +decide [rFixed, subtotalOf, ratioOf, newNote, fmtComma, fmtPlain,
      roundHalfEven, Item.price_per, round2, padTwo, commaRev, pAlice, pBob]
  exact ⟨⟨by decide, by decide, by decide, hcents, hz, htot, hlen⟩,
    spec_C8_amended (by decide) (by decide) (by decide) hcents hz htot hlen⟩

/-- C9: a receipt with non-zero subtotal, at least one participant occurrence,
and every occurrence resolving to `Everyone` makes `batch_receipt` divide the
aggregate by zero remaining participants: the allocation returns the
empty-everyone-split error instead of a Receipt. -/
theorem spec_C9_all_everyone {r : Receipt} {b : Bool}
    (hz : subtotalOf r ≠ 0)
    (hall : ∀ it ∈ r.items, ∀ p ∈ it.participants, p = Participant.everyone)
    (hne : ∃ it ∈ r.items, it.participants ≠ []) :
    batch_receipt r b = .error .emptyEveryoneSplit :=
  batch_all_everyone_error hz hall hne

/-- C9 witness: the error branch reached at a concrete all-`Everyone` receipt. -/
theorem spec_C9_witness :
    (subtotalOf rAllEveryone ≠ 0
      ∧ (∀ it ∈ rAllEveryone.items, ∀ p ∈ it.participants, p = Participant.everyone)
      ∧ (∃ it ∈ rAllEveryone.items, it.participants ≠ []))
    ∧ batch_receipt rAllEveryone true = .error .emptyEveryoneSplit := by
  have hz : subtotalOf rAllEveryone ≠ 0 := by norm_num [subtotalOf, rAllEveryone]
  exact ⟨⟨hz, by decide, by decide⟩, spec_C9_all_everyone hz (by decide) (by decide)⟩

/-- C10: fan-out is per occurrence: over the whole fan-out, each participant
accumulates, for every item, `count` copies of the item's adjusted share
(`count * price_per * ratio`) and `count` copies of the item's note line
(measured in accumulated note length). -/
theorem spec_C10_per_occurrence (r : Receipt) (p : Participant) :
    accAmount (fanout (ratioOf r) r.items) p
      = (r.items.map (fun it =>
          (it.participants.count p : ℚ) * (it.price_per * ratioOf r))).sum
    ∧ accNoteLen (fanout (ratioOf r) r.items) p
      = (r.items.map (fun it =>
          it.participants.count p * (newNote (ratioOf r) it).length)).sum :=
  ⟨accAmount_fanout _ _ _, accNoteLen_fanout _ _ _⟩
